import Mathlib

/-!
Shallow embedding of `src/receipts.py` (receipt validation, points scoring,
and the in-memory receipt pool), together with proofs checking the
natural-language specification against it.

Strings are modelled as `List Char`.  The Python character classes are
modelled on their ASCII fragment (all concrete inputs appearing in the
claims are ASCII; the Unicode extensions of `\w`, `\s`, `str.isalnum`
coincide with the ASCII definitions on ASCII characters).

Python `float`s are modelled exactly: an IEEE-754 binary64 value is a
rational number, and every float operation in the source is modelled as the
exact rational result rounded to 53 significant bits with round-to-nearest,
ties-to-even (`nearestDouble` below).  Values of magnitude at least `2^1024`
denote an infinity.  All float inputs in the program are non-negative and
far above the subnormal range, so normal-range rounding is the exact
semantics.
-/

namespace ReceiptProc

/-! ### Python character classes (ASCII fragment) -/

/-- Python whitespace (`\s`, `str.isspace`, `str.strip`), ASCII fragment. -/
def pyIsSpace (c : Char) : Bool :=
  c = ' ' || c = '\t' || c = '\n' || c = '\r' || c = '\x0b' || c = '\x0c'

/-- Python `\d`: the characters from `'0'` (code 48) to `'9'` (code 57). -/
def pyIsDigit (c : Char) : Bool := 48 ≤ c.toNat && c.toNat ≤ 57

/-- Python `str.isalnum`, ASCII fragment. -/
def pyIsAlnum (c : Char) : Bool :=
  ('0' ≤ c && c ≤ '9') || ('a' ≤ c && c ≤ 'z') || ('A' ≤ c && c ≤ 'Z')

/-- Python `\w`, ASCII fragment. -/
def pyIsWord (c : Char) : Bool := pyIsAlnum c || c = '_'

/-! ### Python string helpers -/

/-- Drop leading Python whitespace. -/
def stripLeading : List Char → List Char
  | [] => []
  | c :: r => if pyIsSpace c then stripLeading r else c :: r

/-- Python `str.strip()`: drop leading and trailing whitespace. -/
def pyStrip (s : List Char) : List Char :=
  ((stripLeading s).reverse |> stripLeading).reverse

/-- Decimal digit string to number (helper for `int()` on digit strings). -/
def digitsToNat (s : List Char) : ℕ :=
  s.foldl (fun n c => 10 * n + (c.toNat - 48)) 0

/-- Python `int()` on the (non-negative) digit strings produced by the
validated formats: surrounding whitespace is stripped, then the digits are
read in base 10. -/
def pyInt (s : List Char) : ℕ := digitsToNat (pyStrip s)

/-- Auxiliary for `pySplit`; `acc` holds the current chunk reversed. -/
def pySplitAux (sep : Char) : List Char → List Char → List (List Char)
  | [], acc => [acc.reverse]
  | c :: r, acc =>
    if c = sep then acc.reverse :: pySplitAux sep r []
    else pySplitAux sep r (c :: acc)

/-- Python `str.split(sep)` for a one-character separator. -/
def pySplit (sep : Char) (s : List Char) : List (List Char) :=
  pySplitAux sep s []

/-! ### Module helper functions of `receipts.py` -/

/-- `count_alphanumeric`: number of alphanumeric characters in a string. -/
def count_alphanumeric (s : List Char) : ℕ := s.countP pyIsAlnum

/-- `has_zero_cents`: `_, cents = price_str.split(".")`, then `cents == "00"`.
(The character comparison is exact: a trailing newline in the string makes
it fail.) -/
def has_zero_cents (s : List Char) : Bool :=
  (pySplit '.' s).getD 1 [] = ['0', '0']

/-- `get_day`: `int(date_str.split("-")[2])`. -/
def get_day (s : List Char) : ℕ := pyInt ((pySplit '-' s).getD 2 [])

/-- `split_time`: `time_str.split(":")`, then `int` of parts 0 and 1. -/
def split_time (s : List Char) : ℕ × ℕ :=
  (pyInt ((pySplit ':' s).getD 0 []), pyInt ((pySplit ':' s).getD 1 []))

/-! ### Exact model of IEEE-754 binary64 rounding -/

/-- Round a rational to the nearest integer, ties to even. -/
def roundHalfEven (x : ℚ) : ℤ :=
  if x - (⌊x⌋ : ℚ) < 1 / 2 then ⌊x⌋
  else if 1 / 2 < x - (⌊x⌋ : ℚ) then ⌊x⌋ + 1
  else if Even ⌊x⌋ then ⌊x⌋ else ⌊x⌋ + 1

/-- Round a positive rational to 53 significant binary digits
(round to nearest, ties to even): the value of the binary64 double nearest
to `q`, with unbounded exponent. -/
def nearestDoublePos (q : ℚ) : ℚ :=
  let e : ℤ := Int.log 2 q
  (roundHalfEven (q * 2 ^ ((52 : ℤ) - e)) : ℚ) * 2 ^ (e - 52)

/-- The binary64 double nearest to `q` (unbounded exponent; results of
magnitude at least `2^1024` denote infinities). -/
def nearestDouble (q : ℚ) : ℚ :=
  if 0 < q then nearestDoublePos q
  else if q < 0 then -nearestDoublePos (-q)
  else 0

/-- Any double of magnitude at least this value is an infinity
(round-to-nearest overflow threshold characterisation). -/
def dblOverflow : ℚ := 2 ^ 1024

/-- The double denoted by the Python literal `0.2`. -/
def pyLit02 : ℚ := nearestDouble (1 / 5)

/-- Exact decimal value of a money string `\d+\.\d{2}` (with an optional
trailing newline, which `float()` strips). -/
def pyDecimalValue (s : List Char) : ℚ :=
  let parts := pySplit '.' s
  (digitsToNat (parts.getD 0 []) : ℚ) +
    (digitsToNat (pyStrip (parts.getD 1 [])) : ℚ) / 100

/-- Python `float()` on a validated money string: the exact decimal value,
correctly rounded to a double. -/
def pyFloat (s : List Char) : ℚ := nearestDouble (pyDecimalValue s)

/-- The integer (dollar) part of a money string, as a number. -/
def moneyIntVal (s : List Char) : ℕ := digitsToNat ((pySplit '.' s).getD 0 [])

/-- The cents part of a money string, as a number. -/
def moneyCentsVal (s : List Char) : ℕ :=
  digitsToNat (pyStrip ((pySplit '.' s).getD 1 []))

/-- The exact value of a money string, in cents. -/
def moneyCents (s : List Char) : ℕ := 100 * moneyIntVal s + moneyCentsVal s

/-- Python `d * 0.2` on doubles: exact product rounded again (an infinite
operand propagates). -/
def pyMulLit02 (d : ℚ) : ℚ :=
  if dblOverflow ≤ d then d else nearestDouble (d * pyLit02)

/-- Python `math.ceil` on a non-negative double: exact on finite doubles,
raises `OverflowError` on an infinity. -/
def pyCeilToInt (x : ℚ) : Except Unit ℤ :=
  if dblOverflow ≤ x then .error () else .ok ⌈x⌉

/-- Python `d % 0.25 == 0` on a non-negative double `d`: `fmod` by `0.25`
is exact on finite doubles, so the test holds iff `4 * d` is an integer;
on an infinity the remainder is `nan` and the comparison is false. -/
def pyFmodQuarterIsZero (d : ℚ) : Bool :=
  if dblOverflow ≤ d then false else (4 * d).den = 1

deriving instance DecidableEq for Except

/-! ### Data model -/

/-- An item of a receipt (post-validation field strings). -/
structure Item where
  shortDescription : List Char
  price : List Char
deriving DecidableEq

/-- A receipt record (post-validation field strings). -/
structure ReceiptData where
  retailer : List Char
  purchaseDate : List Char
  purchaseTime : List Char
  items : List Item
  total : List Char
deriving DecidableEq

/-! ### `Receipt.calculate_points` -/

/-- Rule 3 of `calculate_points`: `25 if float(total) % 0.25 == 0`. -/
def rule3Points (total : List Char) : ℤ :=
  if pyFmodQuarterIsZero (pyFloat total) then 25 else 0

/-- Rule 5 of `calculate_points`, one item:
`if len(desc.strip()) % 3 == 0: ceil(float(price) * 0.2)`. -/
def rule5Item (it : Item) : Except Unit ℤ :=
  if (pyStrip it.shortDescription).length % 3 = 0 then
    pyCeilToInt (pyMulLit02 (pyFloat it.price))
  else .ok 0

/-- Rule 5 of `calculate_points`, summed over the items in order. -/
def rule5Items : List Item → Except Unit ℤ
  | [] => .ok 0
  | it :: rest => do
    let c ← rule5Item it
    let r ← rule5Items rest
    pure (c + r)

/-- Rule 7 of `calculate_points`:
`hour, minute = split_time(t); 10 if hour == 15 or (hour == 14 and minute > 0)`. -/
def rule7Points (t : List Char) : ℤ :=
  if (split_time t).1 = 15 ∨ ((split_time t).1 = 14 ∧ 0 < (split_time t).2)
  then 10 else 0

/-- `Receipt.calculate_points`: the sum of the seven rule contributions
applied in source order.  Rule 5 can raise `OverflowError`
(`math.ceil` of an infinite float), which aborts the whole computation. -/
def calculate_points (r : ReceiptData) : Except Unit ℤ := do
  let p1 : ℤ := count_alphanumeric r.retailer
  let p2 : ℤ := if has_zero_cents r.total then 50 else 0
  let p3 : ℤ := rule3Points r.total
  let p4 : ℤ := ((r.items.length / 2 * 5 : ℕ) : ℤ)
  let p5 ← rule5Items r.items
  let p6 : ℤ := if get_day r.purchaseDate % 2 = 1 then 6 else 0
  let p7 : ℤ := rule7Points r.purchaseTime
  pure (p1 + p2 + p3 + p4 + p5 + p6 + p7)

/-! ### The marshmallow validation schemas

Each field pattern `^pat$` is checked with `re.match`, whose `$` matches at
the end of the string or just before one final newline:
`reMatchDollar core s` is true iff `core` matches all of `s`, or all of `s`
less one trailing newline. -/

/-- Python `re.match` of an `^...$`-anchored pattern whose core is decided
by `core` on a whole string. -/
def reMatchDollar (core : List Char → Bool) (s : List Char) : Bool :=
  core s ||
    (match s.getLast? with
     | some '\n' => core s.dropLast
     | _ => false)

/-- Core of the retailer pattern `\S(.*\S)?`: a non-space character,
optionally followed by any characters and a final non-space character where
`.` matches anything except a newline.  The optional group, when present,
must consume the whole remainder, so it succeeds exactly when the remainder
ends in a non-space character and has no newline before it. -/
def retailerCore : List Char → Bool
  | [] => false
  | c :: rest =>
    !pyIsSpace c &&
      (match rest.reverse with
       | [] => true
       | last :: mid => !pyIsSpace last && mid.all (fun x => x ≠ '\n'))

/-- Core of the date pattern `\d{4}-\d{2}-\d{2}`. -/
def dateCore : List Char → Bool
  | [y1, y2, y3, y4, '-', m1, m2, '-', d1, d2] =>
    pyIsDigit y1 && pyIsDigit y2 && pyIsDigit y3 && pyIsDigit y4 &&
      pyIsDigit m1 && pyIsDigit m2 && pyIsDigit d1 && pyIsDigit d2
  | _ => false

/-- The minute part `[0-5][0-9]` of the time pattern
(`[0-5]` is codes 48–53). -/
def minutePart (m1 m2 : Char) : Bool :=
  (48 ≤ m1.toNat && m1.toNat ≤ 53) && pyIsDigit m2

/-- The hour alternative `[01]?[0-9]|2[0-3]` of the time pattern, two-digit
case (`[0-3]` is codes 48–51). -/
def hourPart (h1 h2 : Char) : Bool :=
  (h1 = '0' || h1 = '1') && pyIsDigit h2 ||
    h1 = '2' && (48 ≤ h2.toNat && h2.toNat ≤ 51)

/-- Core of the time pattern `([01]?[0-9]|2[0-3]):[0-5][0-9]`. -/
def timeCore : List Char → Bool
  | [h, c, m1, m2] => pyIsDigit h && c = ':' && minutePart m1 m2
  | [h1, h2, c, m1, m2] => hourPart h1 h2 && c = ':' && minutePart m1 m2
  | _ => false

/-- Core of the description pattern `[\w\s\-]+`. -/
def descCore (s : List Char) : Bool :=
  !s.isEmpty && s.all (fun c => pyIsWord c || pyIsSpace c || c = '-')

/-- Exactly two digits: `\d{2}` against a whole string. -/
def twoDigits : List Char → Bool
  | [d1, d2] => pyIsDigit d1 && pyIsDigit d2
  | _ => false

/-- Tail of the money pattern after at least one digit: `\d*\.\d{2}`.
Deterministic because `.` is not a digit. -/
def moneyTail : List Char → Bool
  | [] => false
  | c :: rest => if c = '.' then twoDigits rest else pyIsDigit c && moneyTail rest

/-- Core of the money pattern `\d+\.\d{2}` (item `price` and `total`). -/
def moneyCore : List Char → Bool
  | [] => false
  | c :: rest => pyIsDigit c && moneyTail rest

/-- `ReceiptSchema.retailer` validator. -/
def matchRetailer (s : List Char) : Bool := reMatchDollar retailerCore s

/-- `ReceiptSchema.purchaseDate` validator. -/
def matchDate (s : List Char) : Bool := reMatchDollar dateCore s

/-- `ReceiptSchema.purchaseTime` validator. -/
def matchTime (s : List Char) : Bool := reMatchDollar timeCore s

/-- `ItemSchema.shortDescription` validator. -/
def matchDesc (s : List Char) : Bool := reMatchDollar descCore s

/-- `ItemSchema.price` / `ReceiptSchema.total` validator. -/
def matchMoney (s : List Char) : Bool := reMatchDollar moneyCore s

/-- `ItemSchema` on a (present, string-typed) item. -/
def itemOk (it : Item) : Bool :=
  matchDesc it.shortDescription && matchMoney it.price

/-- `ReceiptSchema` on a receipt record with all fields present. -/
def validReceipt (r : ReceiptData) : Bool :=
  matchRetailer r.retailer && matchDate r.purchaseDate &&
    matchTime r.purchaseTime && !r.items.isEmpty && r.items.all itemOk &&
    matchMoney r.total

/-! ### Untyped input records and `Receipt.__init__` -/

/-- A raw item record: each marshmallow field may be missing. -/
structure ItemInput where
  shortDescription : Option (List Char)
  price : Option (List Char)
deriving DecidableEq

/-- A raw receipt record: each marshmallow field may be missing. -/
structure ReceiptInput where
  retailer : Option (List Char)
  purchaseDate : Option (List Char)
  purchaseTime : Option (List Char)
  items : Option (List ItemInput)
  total : Option (List Char)
deriving DecidableEq

/-- The five top-level schema fields. -/
inductive Field where
  | retailer
  | purchaseDate
  | purchaseTime
  | items
  | total
deriving DecidableEq

/-- The schema fields in declaration order. -/
def Field.all : List Field :=
  [.retailer, .purchaseDate, .purchaseTime, .items, .total]

/-- A present field value passing its validator. -/
def optOk (m : Option (List Char)) (f : List Char → Bool) : Bool :=
  match m with
  | none => false
  | some v => f v

/-- `ItemSchema` on a raw item: both fields present and matching. -/
def itemInputOk (it : ItemInput) : Bool :=
  optOk it.shortDescription matchDesc && optOk it.price matchMoney

/-- Whether `ReceiptSchema.validate` reports an error for a field: a
missing required field, a failed field validator, an empty item list, or
any invalid nested item. -/
def fieldBad (inp : ReceiptInput) : Field → Bool
  | .retailer => !optOk inp.retailer matchRetailer
  | .purchaseDate => !optOk inp.purchaseDate matchDate
  | .purchaseTime => !optOk inp.purchaseTime matchTime
  | .items =>
    match inp.items with
    | none => true
    | some l => l.isEmpty || !l.all itemInputOk
  | .total => !optOk inp.total matchMoney

/-- The aggregated error set of `ReceiptSchema.validate`: every violated
field, in schema order. -/
def validationErrors (inp : ReceiptInput) : List Field :=
  Field.all.filter (fieldBad inp)

/-- A stored receipt entity: generated id, computed points, and the data. -/
structure Receipt where
  id : ℕ
  points : ℤ
  data : ReceiptData
deriving DecidableEq

/-- Failure modes of `Receipt.__init__`: a `ValidationError` carrying the
violated fields, or the (pathological) `OverflowError` from rule 5. -/
inductive BuildError where
  | validation (errs : List Field)
  | overflow
deriving DecidableEq

/-- The typed record of a fully-present raw record. -/
def toData (inp : ReceiptInput) : Option ReceiptData := do
  let retailer ← inp.retailer
  let purchaseDate ← inp.purchaseDate
  let purchaseTime ← inp.purchaseTime
  let rawItems ← inp.items
  let items ← rawItems.mapM fun it => do
    let d ← it.shortDescription
    let p ← it.price
    pure (⟨d, p⟩ : Item)
  let total ← inp.total
  pure ⟨retailer, purchaseDate, purchaseTime, items, total⟩

/-- `Receipt.__init__`: validate (raising a `ValidationError` with the
aggregated field errors on any failure, producing nothing else), then
generate an id, then compute the points. -/
def mkReceipt (inp : ReceiptInput) (fresh : ℕ) : Except BuildError Receipt :=
  if validationErrors inp = [] then
    match toData inp with
    | some d =>
      match calculate_points d with
      | .ok n => .ok ⟨fresh, n, d⟩
      | .error _ => .error .overflow
    | none => .error (.validation (validationErrors inp))
  else .error (.validation (validationErrors inp))

/-! ### `Receipt_Pool`

The pool's dict is an association list with (by construction) distinct
keys.  `uuid4` is modelled by an explicit supply of future generator
outputs: `add_receipt` consumes one per collision, and returns `none` only
in the probability-zero event that the whole supply collides. -/

/-- The pool's `self.data` dictionary. -/
abbrev Pool := List (ℕ × Receipt)

/-- Dictionary lookup `self.data.get(receipt_id, None)`. -/
def lookupPool : Pool → ℕ → Option Receipt
  | [], _ => none
  | (k, r) :: rest, j => if j = k then some r else lookupPool rest j

/-- The keys of the pool. -/
def poolKeys (p : Pool) : List ℕ := p.map Prod.fst

/-- `Receipt_Pool.add_receipt`: while the receipt's id collides with an
existing key, overwrite it with the next generated id; then insert the
receipt under its (final) id.  Returns the new pool and the receipt as
mutated. -/
def add_receipt (p : Pool) : List ℕ → Receipt → Option (Pool × Receipt)
  | [], r =>
    if lookupPool p r.id = none then some ((r.id, r) :: p, r) else none
  | i :: rest, r =>
    if lookupPool p r.id = none then some ((r.id, r) :: p, r)
    else add_receipt p rest { r with id := i }

/-- `Receipt_Pool.get_receipt`. -/
def get_receipt (p : Pool) (k : ℕ) : Option Receipt := lookupPool p k

/-- `del self.data[k]`: remove the binding of key `k` (keys are unique in
every pool built by the operations, so exactly one binding is removed). -/
def erasePool (p : Pool) (k : ℕ) : Pool :=
  p.filter fun kv => kv.1 ≠ k

/-- `Receipt_Pool.delete_receipt`: `(success, new pool)`.  A `Receipt` is
always truthy, so the source's `if self.data.get(receipt_id, None):` tests
presence. -/
def delete_receipt (p : Pool) (k : ℕ) : Bool × Pool :=
  match lookupPool p k with
  | some _ => (true, erasePool p k)
  | none => (false, p)

/-- Pool states reachable from the empty pool by `add_receipt` and
`delete_receipt`. -/
inductive Reach : Pool → Prop where
  | empty : Reach []
  | add {p supply r p' r'} :
      Reach p → add_receipt p supply r = some (p', r') → Reach p'
  | del {p k} : Reach p → Reach (delete_receipt p k).2

/-- The retailer acceptance condition, restated on a plain string
(no `$`-newline allowance): non-empty, first and last characters
non-whitespace, and no newline strictly between them. -/
def retailerPlain (u : List Char) : Bool :=
  !u.isEmpty && !pyIsSpace ((u.head?).getD ' ') &&
    !pyIsSpace ((u.getLast?).getD ' ') &&
    ((u.drop 1).dropLast.all fun c => c ≠ '\n')

/-- The amended characterisation of the retailer validator: after removing
one trailing newline if present, the string is non-empty, starts and ends
with a non-whitespace character, and contains no interior newline. -/
def retailerSpecOk (s : List Char) : Bool :=
  if s.getLast? = some '\n' then retailerPlain s.dropLast
  else retailerPlain s

/-! ### Properties of the rounding model -/

theorem roundHalfEven_eq_of_close {x : ℚ} {m : ℤ} (h : |x - (m : ℚ)| < 1 / 2) :
    roundHalfEven x = m := by
  rw [abs_sub_lt_iff] at h
  obtain ⟨h1, h2⟩ := h
  rcases le_or_lt (m : ℚ) x with hxm | hxm
  · have hf : ⌊x⌋ = m := by
      rw [Int.floor_eq_iff]
      refine ⟨hxm, ?_⟩
      linarith
    rw [roundHalfEven, hf, if_pos (by linarith)]
  · have hf : ⌊x⌋ = m - 1 := by
      rw [Int.floor_eq_iff]
      constructor
      · push_cast
        linarith
      · push_cast
        linarith
    have hgt : 1 / 2 < x - (⌊x⌋ : ℚ) := by
      rw [hf]
      push_cast
      linarith
    rw [roundHalfEven, if_neg (by linarith), if_pos hgt, hf]
    ring

theorem roundHalfEven_intCast (m : ℤ) : roundHalfEven (m : ℚ) = m :=
  roundHalfEven_eq_of_close (by simp)

theorem abs_roundHalfEven_sub_le (x : ℚ) : |(roundHalfEven x : ℚ) - x| ≤ 1 / 2 := by
  have h0 : (⌊x⌋ : ℚ) ≤ x := Int.floor_le x
  have h1 : x < (⌊x⌋ : ℚ) + 1 := Int.lt_floor_add_one x
  rw [roundHalfEven]
  split_ifs with ha hb hc <;> rw [abs_le] <;> constructor <;> push_cast <;> linarith

theorem roundHalfEven_nonneg {x : ℚ} (h : 0 ≤ x) : 0 ≤ roundHalfEven x := by
  have h0 : (0 : ℤ) ≤ ⌊x⌋ := Int.floor_nonneg.mpr h
  rw [roundHalfEven]
  split_ifs <;> omega

/-- Uniqueness of the binade: if `2^e ≤ q < 2^(e+1)` then `e` is the
binary floor-logarithm of `q`. -/
theorem int_log_eq_of_bounds {q : ℚ} {e : ℤ}
    (h1 : (2 : ℚ) ^ e ≤ q) (h2 : q < (2 : ℚ) ^ (e + 1)) : Int.log 2 q = e := by
  have hq : 0 < q := lt_of_lt_of_le (zpow_pos (by norm_num) e) h1
  have hb1 : (2 : ℚ) ^ Int.log 2 q ≤ q := by
    have hcast : ((2 : ℕ) : ℚ) ^ Int.log 2 q ≤ q :=
      Int.zpow_log_le_self (by norm_num) hq
    simpa using hcast
  have hb2 : q < (2 : ℚ) ^ (Int.log 2 q + 1) := by
    have hcast : q < ((2 : ℕ) : ℚ) ^ (Int.log 2 q + 1) :=
      Int.lt_zpow_succ_log_self (by norm_num) q
    simpa using hcast
  have hlt1 : (2 : ℚ) ^ e < (2 : ℚ) ^ (Int.log 2 q + 1) := lt_of_le_of_lt h1 hb2
  have hlt2 : (2 : ℚ) ^ Int.log 2 q < (2 : ℚ) ^ (e + 1) := lt_of_le_of_lt hb1 h2
  have he1 : e < Int.log 2 q + 1 :=
    (zpow_lt_zpow_iff_right₀ (by norm_num : (1 : ℚ) < 2)).mp hlt1
  have he2 : Int.log 2 q < e + 1 :=
    (zpow_lt_zpow_iff_right₀ (by norm_num : (1 : ℚ) < 2)).mp hlt2
  omega

theorem two_zpow_mul_cancel (e : ℤ) :
    (2 : ℚ) ^ ((52 : ℤ) - e) * (2 : ℚ) ^ (e - 52) = 1 := by
  rw [← zpow_add₀ (by norm_num : (2 : ℚ) ≠ 0)]
  norm_num

/-- Rounding, written with an explicit binade exponent. -/
theorem nearestDouble_eq_scaled {q : ℚ} (e : ℤ)
    (h1 : (2 : ℚ) ^ e ≤ q) (h2 : q < (2 : ℚ) ^ (e + 1)) :
    nearestDouble q =
      (roundHalfEven (q * 2 ^ ((52 : ℤ) - e)) : ℚ) * 2 ^ (e - 52) := by
  have hq : 0 < q := lt_of_lt_of_le (zpow_pos (by norm_num) e) h1
  rw [nearestDouble, if_pos hq, nearestDoublePos, int_log_eq_of_bounds h1 h2]

/-- The rounded value is within half an ulp of the input. -/
theorem nearestDouble_err {q : ℚ} (e : ℤ)
    (h1 : (2 : ℚ) ^ e ≤ q) (h2 : q < (2 : ℚ) ^ (e + 1)) :
    |nearestDouble q - q| ≤ (2 : ℚ) ^ (e - 53) := by
  rw [nearestDouble_eq_scaled e h1 h2]
  have hpos : (0 : ℚ) < (2 : ℚ) ^ (e - 52) := zpow_pos (by norm_num) _
  have key : (roundHalfEven (q * 2 ^ ((52 : ℤ) - e)) : ℚ) * 2 ^ (e - 52) - q =
      ((roundHalfEven (q * 2 ^ ((52 : ℤ) - e)) : ℚ) - q * 2 ^ ((52 : ℤ) - e)) *
        (2 : ℚ) ^ (e - 52) := by
    rw [sub_mul, mul_assoc, two_zpow_mul_cancel, mul_one]
  calc |(roundHalfEven (q * 2 ^ ((52 : ℤ) - e)) : ℚ) * 2 ^ (e - 52) - q|
      = |(roundHalfEven (q * 2 ^ ((52 : ℤ) - e)) : ℚ) - q * 2 ^ ((52 : ℤ) - e)| *
          (2 : ℚ) ^ (e - 52) := by
        rw [key, abs_mul, abs_of_pos hpos]
    _ ≤ (1 / 2) * (2 : ℚ) ^ (e - 52) := by
        apply mul_le_mul_of_nonneg_right (abs_roundHalfEven_sub_le _) hpos.le
    _ = (2 : ℚ) ^ (e - 53) := by
        rw [show (e - 53 : ℤ) = (-1) + (e - 52) by ring,
          zpow_add₀ (by norm_num : (2 : ℚ) ≠ 0)]
        norm_num

/-- A value already on the 53-bit grid of its binade rounds to itself. -/
theorem nearestDouble_eq_self {q : ℚ} (e : ℤ) {m : ℤ}
    (h1 : (2 : ℚ) ^ e ≤ q) (h2 : q < (2 : ℚ) ^ (e + 1))
    (hm : q = (m : ℚ) * 2 ^ (e - 52)) : nearestDouble q = q := by
  rw [nearestDouble_eq_scaled e h1 h2]
  have : q * 2 ^ ((52 : ℤ) - e) = (m : ℚ) := by
    rw [hm, mul_comm (m : ℚ), mul_comm, ← mul_assoc, two_zpow_mul_cancel, one_mul]
  rw [this, roundHalfEven_intCast, ← this, mul_assoc, two_zpow_mul_cancel, mul_one]

/-- A value strictly nearer than half an ulp to a grid point rounds to it. -/
theorem nearestDouble_eq_of_close {q v : ℚ} (e : ℤ) {m : ℤ}
    (h1 : (2 : ℚ) ^ e ≤ q) (h2 : q < (2 : ℚ) ^ (e + 1))
    (hv : v = (m : ℚ) * 2 ^ (e - 52))
    (hd : |q - v| < (2 : ℚ) ^ (e - 53)) : nearestDouble q = v := by
  rw [nearestDouble_eq_scaled e h1 h2]
  have hme : v * 2 ^ ((52 : ℤ) - e) = (m : ℚ) := by
    rw [hv, mul_comm (m : ℚ), mul_comm, ← mul_assoc, two_zpow_mul_cancel, one_mul]
  have hclose : |q * 2 ^ ((52 : ℤ) - e) - (m : ℚ)| < 1 / 2 := by
    rw [← hme, ← sub_mul, abs_mul,
      abs_of_pos (zpow_pos (by norm_num : (0 : ℚ) < 2) ((52 : ℤ) - e))]
    calc |q - v| * (2 : ℚ) ^ ((52 : ℤ) - e)
        < (2 : ℚ) ^ (e - 53) * (2 : ℚ) ^ ((52 : ℤ) - e) := by
          apply mul_lt_mul_of_pos_right hd (zpow_pos (by norm_num) _)
      _ = 1 / 2 := by
          rw [← zpow_add₀ (by norm_num : (2 : ℚ) ≠ 0)]
          norm_num
  rw [roundHalfEven_eq_of_close hclose, hv]

theorem nearestDouble_nonneg {q : ℚ} (h : 0 ≤ q) : 0 ≤ nearestDouble q := by
  rw [nearestDouble]
  split_ifs with h1 h2
  · apply mul_nonneg _ (zpow_pos (by norm_num : (0 : ℚ) < 2) _).le
    exact_mod_cast roundHalfEven_nonneg
      (mul_nonneg h1.le (zpow_pos (by norm_num : (0 : ℚ) < 2) _).le)
  · exact absurd h2 (not_lt.mpr h)
  · exact le_refl 0

/-- The double denoted by the literal `0.2`. -/
theorem pyLit02_eq : pyLit02 = 3602879701896397 / 2 ^ 54 := by
  rw [pyLit02,
    nearestDouble_eq_scaled (-3) (by norm_num) (by norm_num)]
  norm_num
  rw [show roundHalfEven ((36028797018963968 : ℚ) / 5) = 7205759403792794 from
    roundHalfEven_eq_of_close (by rw [abs_sub_lt_iff]; constructor <;> norm_num)]
  norm_num

/-! ### Parsing lemmas: what the validators guarantee about the parsers -/

theorem pySplitAux_sep_free {sep : Char} {ds : List Char}
    (h : ∀ c ∈ ds, c ≠ sep) (acc : List Char) :
    pySplitAux sep ds acc = [acc.reverse ++ ds] := by
  induction ds generalizing acc with
  | nil => simp [pySplitAux]
  | cons c r ih =>
    have hc : c ≠ sep := h c (List.mem_cons_self c r)
    rw [pySplitAux, if_neg hc, ih fun x hx => h x (List.mem_cons_of_mem c hx)]
    simp

theorem pySplitAux_break {sep : Char} {ds rest : List Char}
    (h : ∀ c ∈ ds, c ≠ sep) (acc : List Char) :
    pySplitAux sep (ds ++ sep :: rest) acc =
      (acc.reverse ++ ds) :: pySplitAux sep rest [] := by
  induction ds generalizing acc with
  | nil => simp [pySplitAux]
  | cons c r ih =>
    have hc : c ≠ sep := h c (List.mem_cons_self c r)
    rw [List.cons_append, pySplitAux, if_neg hc,
      ih fun x hx => h x (List.mem_cons_of_mem c hx)]
    simp

/-- `split(sep)` of a string with exactly one separator occurrence. -/
theorem pySplit_single {sep : Char} {ds rest : List Char}
    (h1 : ∀ c ∈ ds, c ≠ sep) (h2 : ∀ c ∈ rest, c ≠ sep) :
    pySplit sep (ds ++ sep :: rest) = [ds, rest] := by
  rw [pySplit, pySplitAux_break h1, pySplitAux_sep_free h2]
  simp

theorem stripLeading_cons_of_not_space {c : Char} {r : List Char}
    (h : pyIsSpace c = false) : stripLeading (c :: r) = c :: r := by
  rw [stripLeading, h]
  simp

theorem pyIsDigit_not_space {c : Char} (h : pyIsDigit c = true) :
    pyIsSpace c = false := by
  rw [pyIsDigit, Bool.and_eq_true, decide_eq_true_eq, decide_eq_true_eq] at h
  rw [pyIsSpace]
  have e1 : c ≠ ' ' := fun hc => by rw [hc] at h; simp at h
  have e2 : c ≠ '\t' := fun hc => by rw [hc] at h; simp at h
  have e3 : c ≠ '\n' := fun hc => by rw [hc] at h; simp at h
  have e4 : c ≠ '\r' := fun hc => by rw [hc] at h; simp at h
  have e5 : c ≠ '\x0b' := fun hc => by rw [hc] at h; simp at h
  have e6 : c ≠ '\x0c' := fun hc => by rw [hc] at h; simp at h
  simp [e1, e2, e3, e4, e5, e6]

theorem pyIsDigit_ne_dot {c : Char} (h : pyIsDigit c = true) : c ≠ '.' := by
  intro hc
  rw [hc, pyIsDigit] at h
  simp at h

theorem pyIsDigit_ne_colon {c : Char} (h : pyIsDigit c = true) : c ≠ ':' := by
  intro hc
  rw [hc, pyIsDigit] at h
  simp at h

/-- Stripping a two-character digit string is the identity. -/
theorem pyStrip_digit_pair {d1 d2 : Char}
    (h1 : pyIsSpace d1 = false) (h2 : pyIsSpace d2 = false) :
    pyStrip [d1, d2] = [d1, d2] := by
  rw [pyStrip]
  simp only [stripLeading_cons_of_not_space h1]
  simp only [List.reverse_cons, List.reverse_nil, List.nil_append,
    List.cons_append]
  simp only [stripLeading_cons_of_not_space h2]
  simp

/-- Stripping a two-digit string with a trailing newline drops the newline. -/
theorem pyStrip_digit_pair_newline {d1 d2 : Char}
    (h1 : pyIsSpace d1 = false) (h2 : pyIsSpace d2 = false) :
    pyStrip [d1, d2, '\n'] = [d1, d2] := by
  rw [pyStrip]
  simp only [stripLeading_cons_of_not_space h1]
  simp only [List.reverse_cons, List.reverse_nil, List.nil_append,
    List.cons_append]
  rw [show stripLeading ['\n', d2, d1] = stripLeading [d2, d1] by
    rw [stripLeading]; simp [pyIsSpace]]
  simp only [stripLeading_cons_of_not_space h2]
  simp

theorem pyStrip_single_digit {d : Char} (h : pyIsSpace d = false) :
    pyStrip [d] = [d] := by
  rw [pyStrip]
  simp only [stripLeading_cons_of_not_space h]
  simp only [List.reverse_cons, List.reverse_nil, List.nil_append]
  simp only [stripLeading_cons_of_not_space h]
  simp

theorem digitsToNat_pair (d1 d2 : Char) :
    digitsToNat [d1, d2] = 10 * (d1.toNat - 48) + (d2.toNat - 48) := by
  simp [digitsToNat, List.foldl]

theorem digitsToNat_single (d : Char) : digitsToNat [d] = d.toNat - 48 := by
  simp [digitsToNat, List.foldl]

theorem pyIsDigit_toNat_bounds {c : Char} (h : pyIsDigit c = true) :
    48 ≤ c.toNat ∧ c.toNat ≤ 57 := by
  rw [pyIsDigit, Bool.and_eq_true, decide_eq_true_eq, decide_eq_true_eq] at h
  exact h

/-- Destructor for `re.match` of an `^...$` pattern: either the core
matches the whole string, or the string ends in a newline and the core
matches everything before it. -/
theorem reMatchDollar_cases {core : List Char → Bool} {s : List Char}
    (h : reMatchDollar core s = true) :
    core s = true ∨ ∃ u, s = u ++ ['\n'] ∧ core u = true := by
  rw [reMatchDollar, Bool.or_eq_true] at h
  rcases h with h | h
  · exact Or.inl h
  · right
    split at h
    · rename_i heq
      rcases List.eq_nil_or_concat s with rfl | ⟨u, a, rfl⟩
      · simp at heq
      · simp only [List.concat_eq_append] at heq h ⊢
        rw [List.getLast?_concat] at heq
        obtain rfl : a = '\n' := by injection heq
        rw [List.dropLast_concat] at h
        exact ⟨u, rfl, h⟩
    · simp at h

/-- The digit-string tail of the money pattern decomposes the string. -/
theorem moneyTail_decomp {s : List Char} (h : moneyTail s = true) :
    ∃ ds d1 d2, s = ds ++ '.' :: [d1, d2] ∧
      (∀ c ∈ ds, pyIsDigit c = true) ∧ pyIsDigit d1 = true ∧
      pyIsDigit d2 = true := by
  induction s with
  | nil => rw [moneyTail] at h; exact absurd h (by simp)
  | cons c rest ih =>
    rw [moneyTail] at h
    by_cases hc : c = '.'
    · rw [if_pos hc] at h
      rcases rest with _ | ⟨d1, r1⟩
      · simp [twoDigits] at h
      rcases r1 with _ | ⟨d2, r2⟩
      · simp [twoDigits] at h
      rcases r2 with _ | ⟨e, r3⟩
      · rw [twoDigits, Bool.and_eq_true] at h
        exact ⟨[], d1, d2, by simp [hc], by simp, h.1, h.2⟩
      · simp [twoDigits] at h
    · rw [if_neg hc, Bool.and_eq_true] at h
      obtain ⟨ds, d1, d2, hs, hds, h1, h2⟩ := ih h.2
      exact ⟨c :: ds, d1, d2, by rw [List.cons_append, hs],
        fun x hx => by
          rcases List.mem_cons.mp hx with rfl | hx
          · exact h.1
          · exact hds x hx,
        h1, h2⟩

theorem not_space_of_toNat_ge {c : Char} (h : 48 ≤ c.toNat) :
    pyIsSpace c = false := by
  rw [pyIsSpace]
  have e1 : c ≠ ' ' := fun hc => by rw [hc] at h; simp at h
  have e2 : c ≠ '\t' := fun hc => by rw [hc] at h; simp at h
  have e3 : c ≠ '\n' := fun hc => by rw [hc] at h; simp at h
  have e4 : c ≠ '\r' := fun hc => by rw [hc] at h; simp at h
  have e5 : c ≠ '\x0b' := fun hc => by rw [hc] at h; simp at h
  have e6 : c ≠ '\x0c' := fun hc => by rw [hc] at h; simp at h
  simp [e1, e2, e3, e4, e5, e6]

/-- Every accepted money string is digits, a dot, two digits, and at most
one trailing newline. -/
theorem money_decomp {s : List Char} (h : matchMoney s = true) :
    ∃ ds d1 d2 nl, (nl = [] ∨ nl = ['\n']) ∧
      s = ds ++ '.' :: (d1 :: d2 :: nl) ∧ ds ≠ [] ∧
      (∀ c ∈ ds, pyIsDigit c = true) ∧
      pyIsDigit d1 = true ∧ pyIsDigit d2 = true := by
  rcases reMatchDollar_cases h with hc | ⟨u, rfl, hc⟩
  · rcases s with _ | ⟨c, rest⟩
    · rw [moneyCore] at hc
      simp at hc
    · rw [moneyCore, Bool.and_eq_true] at hc
      obtain ⟨ds, d1, d2, hs, hds, h1, h2⟩ := moneyTail_decomp hc.2
      refine ⟨c :: ds, d1, d2, [], Or.inl rfl, by simp [hs], by simp,
        fun x hx => ?_, h1, h2⟩
      rcases List.mem_cons.mp hx with rfl | hx
      · exact hc.1
      · exact hds x hx
  · rcases u with _ | ⟨c, rest⟩
    · rw [moneyCore] at hc
      simp at hc
    · rw [moneyCore, Bool.and_eq_true] at hc
      obtain ⟨ds, d1, d2, hs, hds, h1, h2⟩ := moneyTail_decomp hc.2
      refine ⟨c :: ds, d1, d2, ['\n'], Or.inr rfl, by simp [hs], by simp,
        fun x hx => ?_, h1, h2⟩
      rcases List.mem_cons.mp hx with rfl | hx
      · exact hc.1
      · exact hds x hx

/-- The exact value of a money string, via its two digit groups. -/
theorem pyDecimalValue_eq (s : List Char) :
    pyDecimalValue s = (moneyIntVal s : ℚ) + (moneyCentsVal s : ℚ) / 100 :=
  rfl

/-- The parsed cents group of an accepted money string is two digits. -/
theorem money_cents_lt {s : List Char} (h : matchMoney s = true) :
    moneyCentsVal s < 100 := by
  obtain ⟨ds, d1, d2, nl, hnl, rfl, _, hds, h1, h2⟩ := money_decomp h
  have hds' : ∀ c ∈ ds, c ≠ '.' := fun c hc => pyIsDigit_ne_dot (hds c hc)
  have hrest : ∀ c ∈ (d1 :: d2 :: nl), c ≠ '.' := by
    intro c hc
    rcases List.mem_cons.mp hc with rfl | hc
    · exact pyIsDigit_ne_dot h1
    rcases List.mem_cons.mp hc with rfl | hc
    · exact pyIsDigit_ne_dot h2
    rcases hnl with rfl | rfl
    · simp at hc
    · rw [List.mem_singleton.mp hc]
      intro hne
      exact absurd hne (by decide)
  have b1 := pyIsDigit_toNat_bounds h1
  have b2 := pyIsDigit_toNat_bounds h2
  rw [moneyCentsVal, pySplit_single hds' hrest]
  rcases hnl with rfl | rfl
  · rw [show ([ds, [d1, d2]].getD 1 [] : List Char) = [d1, d2] from rfl,
      pyStrip_digit_pair (pyIsDigit_not_space h1) (pyIsDigit_not_space h2),
      digitsToNat_pair]
    omega
  · rw [show ([ds, [d1, d2, '\n']].getD 1 [] : List Char) = [d1, d2, '\n']
        from rfl,
      pyStrip_digit_pair_newline (pyIsDigit_not_space h1)
        (pyIsDigit_not_space h2),
      digitsToNat_pair]
    omega

theorem pyInt_digit_pair_opt_newline {m1 m2 : Char} {nl : List Char}
    (hnl : nl = [] ∨ nl = ['\n'])
    (h1 : pyIsSpace m1 = false) (h2 : pyIsSpace m2 = false) :
    pyInt (m1 :: m2 :: nl) = 10 * (m1.toNat - 48) + (m2.toNat - 48) := by
  rcases hnl with rfl | rfl
  · rw [pyInt, pyStrip_digit_pair h1 h2, digitsToNat_pair]
  · rw [pyInt, pyStrip_digit_pair_newline h1 h2, digitsToNat_pair]

/-- Facts the hour alternative guarantees about its two characters. -/
theorem hourPart_bounds {h1 h2 : Char} (hh : hourPart h1 h2 = true) :
    48 ≤ h1.toNat ∧ 48 ≤ h2.toNat ∧ h2.toNat ≤ 57 ∧
      10 * (h1.toNat - 48) + (h2.toNat - 48) ≤ 23 := by
  rw [hourPart, Bool.or_eq_true, Bool.and_eq_true, Bool.and_eq_true,
    Bool.or_eq_true] at hh
  rcases hh with ⟨h1r, h2d⟩ | ⟨h1r, h2r⟩
  · have b2 := pyIsDigit_toNat_bounds h2d
    rcases h1r with h1r | h1r
    · rw [decide_eq_true_eq] at h1r
      rw [h1r]
      have e0 : ('0' : Char).toNat = 48 := rfl
      rw [e0]
      omega
    · rw [decide_eq_true_eq] at h1r
      rw [h1r]
      have e1 : ('1' : Char).toNat = 49 := rfl
      rw [e1]
      omega
  · rw [decide_eq_true_eq] at h1r
    rw [Bool.and_eq_true, decide_eq_true_eq, decide_eq_true_eq] at h2r
    rw [h1r]
    have e2 : ('2' : Char).toNat = 50 := rfl
    rw [e2]
    omega

/-- Facts the minute part guarantees about its two characters. -/
theorem minutePart_bounds {m1 m2 : Char} (hm : minutePart m1 m2 = true) :
    48 ≤ m1.toNat ∧ m1.toNat ≤ 53 ∧ 48 ≤ m2.toNat ∧ m2.toNat ≤ 57 := by
  rw [minutePart, Bool.and_eq_true, Bool.and_eq_true] at hm
  obtain ⟨⟨ha, hb⟩, hd⟩ := hm
  rw [decide_eq_true_eq] at ha hb
  have b2 := pyIsDigit_toNat_bounds hd
  exact ⟨ha, hb, b2.1, b2.2⟩

/-- Every accepted time string parses to an hour at most 23 and a minute at
most 59. -/
theorem split_time_bounds {s : List Char} (h : matchTime s = true) :
    (split_time s).1 ≤ 23 ∧ (split_time s).2 ≤ 59 := by
  have colonNat : (':' : Char).toNat = 58 := rfl
  have main : ∀ u nl, (nl = [] ∨ nl = ['\n']) → timeCore u = true →
      (split_time (u ++ nl)).1 ≤ 23 ∧ (split_time (u ++ nl)).2 ≤ 59 := by
    intro u nl hnl hc
    have hnlc : ∀ c ∈ nl, c ≠ ':' := by
      intro c hcm
      rcases hnl with rfl | rfl
      · simp at hcm
      · rw [List.mem_singleton.mp hcm]
        intro hne
        exact absurd hne (by decide)
    match u, hc with
    | [a, c, m1, m2], hc =>
      rw [timeCore, Bool.and_eq_true, Bool.and_eq_true] at hc
      obtain ⟨⟨ha, hcol⟩, hm⟩ := hc
      rw [decide_eq_true_eq] at hcol
      subst hcol
      have ba := pyIsDigit_toNat_bounds ha
      have bm := minutePart_bounds hm
      have hsp : pySplit ':' ([a, ':', m1, m2] ++ nl) =
          [[a], m1 :: m2 :: nl] := by
        have hds : ∀ x ∈ [a], x ≠ ':' := by
          intro x hx
          rw [List.mem_singleton.mp hx]
          exact pyIsDigit_ne_colon ha
        have hrest : ∀ x ∈ m1 :: m2 :: nl, x ≠ ':' := by
          intro x hx
          rcases List.mem_cons.mp hx with rfl | hx
          · intro hEq
            rw [hEq, colonNat] at bm
            omega
          rcases List.mem_cons.mp hx with rfl | hx
          · intro hEq
            rw [hEq, colonNat] at bm
            omega
          · exact hnlc x hx
        have := pySplit_single hds hrest
        simpa using this
      rw [split_time, hsp]
      constructor
      · rw [show ([[a], m1 :: m2 :: nl].getD 0 [] : List Char) = [a] from rfl,
          pyInt, pyStrip_single_digit (not_space_of_toNat_ge ba.1),
          digitsToNat_single]
        omega
      · rw [show ([[a], m1 :: m2 :: nl].getD 1 [] : List Char) =
          m1 :: m2 :: nl from rfl,
          pyInt_digit_pair_opt_newline hnl (not_space_of_toNat_ge bm.1)
            (not_space_of_toNat_ge bm.2.2.1)]
        omega
    | [h1, h2, c, m1, m2], hc =>
      rw [timeCore, Bool.and_eq_true, Bool.and_eq_true] at hc
      obtain ⟨⟨hh, hcol⟩, hm⟩ := hc
      rw [decide_eq_true_eq] at hcol
      subst hcol
      have bh := hourPart_bounds hh
      have bm := minutePart_bounds hm
      have hsp : pySplit ':' ([h1, h2, ':', m1, m2] ++ nl) =
          [[h1, h2], m1 :: m2 :: nl] := by
        have hds : ∀ x ∈ [h1, h2], x ≠ ':' := by
          intro x hx
          rcases List.mem_cons.mp hx with rfl | hx
          · intro hEq
            rw [hEq, colonNat] at bh
            omega
          · rw [List.mem_singleton.mp hx]
            intro hEq
            rw [hEq, colonNat] at bh
            omega
        have hrest : ∀ x ∈ m1 :: m2 :: nl, x ≠ ':' := by
          intro x hx
          rcases List.mem_cons.mp hx with rfl | hx
          · intro hEq
            rw [hEq, colonNat] at bm
            omega
          rcases List.mem_cons.mp hx with rfl | hx
          · intro hEq
            rw [hEq, colonNat] at bm
            omega
          · exact hnlc x hx
        have := pySplit_single hds hrest
        simpa using this
      rw [split_time, hsp]
      constructor
      · rw [show ([[h1, h2], m1 :: m2 :: nl].getD 0 [] : List Char) =
          [h1, h2] from rfl,
          pyInt, pyStrip_digit_pair (not_space_of_toNat_ge bh.1)
            (not_space_of_toNat_ge bh.2.1),
          digitsToNat_pair]
        omega
      · rw [show ([[h1, h2], m1 :: m2 :: nl].getD 1 [] : List Char) =
          m1 :: m2 :: nl from rfl,
          pyInt_digit_pair_opt_newline hnl (not_space_of_toNat_ge bm.1)
            (not_space_of_toNat_ge bm.2.2.1)]
        omega
  rcases reMatchDollar_cases h with hc | ⟨u, rfl, hc⟩
  · have := main s [] (Or.inl rfl) hc
    simpa using this
  · exact main u ['\n'] (Or.inr rfl) hc
/-- The exact value of a money string is its cents over `100`. -/
theorem pyDecimalValue_cents (s : List Char) :
    pyDecimalValue s = (moneyCents s : ℚ) / 100 := by
  rw [pyDecimalValue_eq, moneyCents]
  push_cast
  ring

/-! ### Claim C1: the rule-7 time window -/

/-- Claim C1: on every validated purchase time, rule 7 contributes exactly 10
points when the hour is 15 (any minute) or the hour is 14 with a positive
minute, and 0 otherwise; equivalently (given the validated minute bound)
exactly on times strictly between 14:00 and 16:00; in particular 14:00 and
16:00 contribute 0 while 14:01 and 15:59 contribute 10. -/
theorem claim_C1_rule7_window :
    (∀ s, matchTime s = true →
      rule7Points s =
        (if (split_time s).1 = 15 ∨
            ((split_time s).1 = 14 ∧ 0 < (split_time s).2)
         then 10 else 0) ∧
      (rule7Points s = 10 ↔
        840 < 60 * (split_time s).1 + (split_time s).2 ∧
          60 * (split_time s).1 + (split_time s).2 < 960)) ∧
    rule7Points ("14:00".toList) = 0 ∧ rule7Points ("14:01".toList) = 10 ∧
    rule7Points ("15:59".toList) = 10 ∧ rule7Points ("16:00".toList) = 0 := by
  refine ⟨fun s hs => ⟨rfl, ?_⟩, by decide, by decide, by decide, by decide⟩
  obtain ⟨hh, hm⟩ := split_time_bounds hs
  rw [rule7Points]
  split_ifs with hcond
  · constructor
    · intro _
      rcases hcond with h15 | ⟨h14, h0⟩ <;> omega
    · intro _
      rfl
  · constructor
    · intro h10
      exact absurd h10 (by norm_num)
    · intro hw
      exfalso
      push_neg at hcond
      omega

/-- Witness for C1 at the concrete validated time `15:30`. -/
theorem claim_C1_witness : rule7Points ("15:30".toList) = 10 :=
  ((claim_C1_rule7_window.1 ("15:30".toList) (by decide)).2).mpr (by decide)

/-! ### The pool claims C4, C5, C6, C10 -/

theorem lookupPool_eq_none_iff {p : Pool} {k : ℕ} :
    lookupPool p k = none ↔ k ∉ poolKeys p := by
  induction p with
  | nil => simp [lookupPool, poolKeys]
  | cons kv rest ih =>
    obtain ⟨k1, r1⟩ := kv
    rw [lookupPool]
    by_cases hk : k = k1
    · subst hk
      simp [poolKeys]
    · rw [if_neg hk, ih]
      simp [poolKeys, hk]

/-- What a successful `add_receipt` does: the final id was free, the pool
gains exactly that binding, and the receipt's data and points are
untouched. -/
theorem add_receipt_spec {p : Pool} :
    ∀ {supply : List ℕ} {r : Receipt} {p' : Pool} {r' : Receipt},
      add_receipt p supply r = some (p', r') →
      lookupPool p r'.id = none ∧ p' = (r'.id, r') :: p ∧
        r'.data = r.data ∧ r'.points = r.points
  | [], r, p', r', h => by
    rw [add_receipt] at h
    split_ifs at h with hl
    simp only [Option.some.injEq, Prod.mk.injEq] at h
    obtain ⟨rfl, rfl⟩ := h
    exact ⟨hl, rfl, rfl, rfl⟩
  | i :: rest, r, p', r', h => by
    rw [add_receipt] at h
    split_ifs at h with hl
    · simp only [Option.some.injEq, Prod.mk.injEq] at h
      obtain ⟨rfl, rfl⟩ := h
      exact ⟨hl, rfl, rfl, rfl⟩
    · obtain ⟨ha, hb, hc, hd⟩ := add_receipt_spec h
      exact ⟨ha, hb, hc, hd⟩

/-- Claim C4: after `add_receipt` completes, looking the receipt up under its
(possibly regenerated) identifier returns a receipt with the same data and
points. -/
theorem claim_C4_add_get_roundtrip {p p' : Pool} {r r' : Receipt}
    {supply : List ℕ} (h : add_receipt p supply r = some (p', r')) :
    get_receipt p' r'.id = some r' ∧ r'.data = r.data ∧
      r'.points = r.points := by
  obtain ⟨_, rfl, hdata, hpoints⟩ := add_receipt_spec h
  refine ⟨?_, hdata, hpoints⟩
  rw [get_receipt, lookupPool, if_pos rfl]

/-- Witness for C4: a concrete receipt added to the empty pool. -/
theorem claim_C4_witness :
    get_receipt [((3 : ℕ),
      (⟨3, 5, ⟨['T'], [], [], [], []⟩⟩ : Receipt))] 3 =
      some ⟨3, 5, ⟨['T'], [], [], [], []⟩⟩ :=
  (claim_C4_add_get_roundtrip
    (show add_receipt [] [] ⟨3, 5, ⟨['T'], [], [], [], []⟩⟩ =
      some ([((3 : ℕ), (⟨3, 5, ⟨['T'], [], [], [], []⟩⟩ : Receipt))],
        ⟨3, 5, ⟨['T'], [], [], [], []⟩⟩) by decide)).1

/-- Claim C5: two successful inserts — even with colliding generated
identifiers — end with two distinct keys, both receipts retrievable, and
key uniqueness preserved. -/
theorem claim_C5_collision_regeneration {p p1 p2 : Pool}
    {r1 r2 r1' r2' : Receipt} {s1 s2 : List ℕ}
    (h1 : add_receipt p s1 r1 = some (p1, r1'))
    (h2 : add_receipt p1 s2 r2 = some (p2, r2')) :
    r1'.id ≠ r2'.id ∧
      get_receipt p2 r1'.id = some r1' ∧
      get_receipt p2 r2'.id = some r2' ∧
      ((poolKeys p).Nodup → (poolKeys p2).Nodup) := by
  obtain ⟨hfree1, rfl, _, _⟩ := add_receipt_spec h1
  obtain ⟨hfree2, rfl, _, _⟩ := add_receipt_spec h2
  have hne : r1'.id ≠ r2'.id := by
    intro hEq
    rw [lookupPool_eq_none_iff] at hfree2
    exact hfree2 (by rw [← hEq]; simp [poolKeys])
  refine ⟨hne, ?_, ?_, ?_⟩
  · rw [get_receipt, lookupPool, if_neg hne, lookupPool, if_pos rfl]
  · rw [get_receipt, lookupPool, if_pos rfl]
  · intro hnd
    rw [lookupPool_eq_none_iff] at hfree1 hfree2
    simp only [poolKeys, List.map_cons, List.nodup_cons] at hfree2 ⊢
    refine ⟨hfree2, ?_, hnd⟩
    intro hmem
    exact hfree1 hmem

/-- Witness for C5: a genuine collision — both receipts carry generated id
`7`; the second insert regenerates to `9` and both stay retrievable. -/
theorem claim_C5_witness :
    (7 : ℕ) ≠ 9 ∧
      get_receipt [((9 : ℕ), (⟨9, 2, ⟨['B'], [], [], [], []⟩⟩ : Receipt)),
        ((7 : ℕ), (⟨7, 1, ⟨['A'], [], [], [], []⟩⟩ : Receipt))] 7 =
        some ⟨7, 1, ⟨['A'], [], [], [], []⟩⟩ ∧
      get_receipt [((9 : ℕ), (⟨9, 2, ⟨['B'], [], [], [], []⟩⟩ : Receipt)),
        ((7 : ℕ), (⟨7, 1, ⟨['A'], [], [], [], []⟩⟩ : Receipt))] 9 =
        some ⟨9, 2, ⟨['B'], [], [], [], []⟩⟩ ∧
      (poolKeys [((9 : ℕ), (⟨9, 2, ⟨['B'], [], [], [], []⟩⟩ : Receipt)),
        ((7 : ℕ), (⟨7, 1, ⟨['A'], [], [], [], []⟩⟩ : Receipt))]).Nodup := by
  have h := claim_C5_collision_regeneration
    (show add_receipt [] [] ⟨7, 1, ⟨['A'], [], [], [], []⟩⟩ =
      some ([((7 : ℕ), (⟨7, 1, ⟨['A'], [], [], [], []⟩⟩ : Receipt))],
        ⟨7, 1, ⟨['A'], [], [], [], []⟩⟩) by decide)
    (show add_receipt
        [((7 : ℕ), (⟨7, 1, ⟨['A'], [], [], [], []⟩⟩ : Receipt))] [9]
        ⟨7, 2, ⟨['B'], [], [], [], []⟩⟩ =
      some ([((9 : ℕ), (⟨9, 2, ⟨['B'], [], [], [], []⟩⟩ : Receipt)),
        ((7 : ℕ), (⟨7, 1, ⟨['A'], [], [], [], []⟩⟩ : Receipt))],
        ⟨9, 2, ⟨['B'], [], [], [], []⟩⟩) by decide)
  exact ⟨h.1, h.2.1, h.2.2.1, h.2.2.2 (by decide)⟩

theorem lookupPool_erase_self (p : Pool) (k : ℕ) :
    lookupPool (erasePool p k) k = none := by
  induction p with
  | nil => rfl
  | cons kv rest ih =>
    obtain ⟨k1, r1⟩ := kv
    rw [erasePool, List.filter_cons]
    by_cases hk : k1 = k
    · rw [if_neg (by simp [hk])]
      exact ih
    · rw [if_pos (by simp [hk]), lookupPool,
        if_neg (fun hEq => hk hEq.symm)]
      exact ih

theorem lookupPool_erase_of_mem {p : Pool} {k0 k : ℕ} {r : Receipt}
    (h : lookupPool (erasePool p k0) k = some r) :
    lookupPool p k = some r := by
  induction p with
  | nil => simp [erasePool, lookupPool] at h
  | cons kv rest ih =>
    obtain ⟨k1, r1⟩ := kv
    rw [erasePool, List.filter_cons] at h
    by_cases hk : k1 = k0
    · rw [if_neg (by simp [hk])] at h
      have htail : lookupPool (erasePool rest k0) k = some r := h
      rw [lookupPool]
      have hne : k ≠ k1 := by
        intro hEq
        rw [hEq, hk] at htail
        rw [lookupPool_erase_self rest k0] at htail
        exact absurd htail (by simp)
      rw [if_neg hne]
      exact ih htail
    · rw [if_pos (by simp [hk])] at h
      rw [lookupPool] at h ⊢
      by_cases hke : k = k1
      · rwa [if_pos hke] at h ⊢
      · rw [if_neg hke] at h ⊢
        exact ih h

/-- Claim C6: `delete_receipt` returns success and removes the entry when the
id is present; it returns failure, without touching the pool, when absent;
after a successful delete the id is gone and a second delete fails. -/
theorem claim_C6_delete_semantics (p : Pool) (k : ℕ) :
    (∀ r, get_receipt p k = some r →
      delete_receipt p k = (true, erasePool p k) ∧
        get_receipt (erasePool p k) k = none ∧
        delete_receipt (erasePool p k) k = (false, erasePool p k)) ∧
    (get_receipt p k = none → delete_receipt p k = (false, p)) := by
  constructor
  · intro r hr
    rw [get_receipt] at hr
    refine ⟨by rw [delete_receipt, hr], ?_, ?_⟩
    · rw [get_receipt]
      exact lookupPool_erase_self p k
    · rw [delete_receipt, lookupPool_erase_self p k]
  · intro hr
    rw [get_receipt] at hr
    rw [delete_receipt, hr]

/-- Witness for C6 on a one-receipt pool. -/
theorem claim_C6_witness :
    delete_receipt [((4 : ℕ), (⟨4, 0, ⟨['T'], [], [], [], []⟩⟩ : Receipt))] 4 =
      (true, []) ∧
    delete_receipt ([] : Pool) 4 = (false, []) := by
  have h := claim_C6_delete_semantics
    [((4 : ℕ), (⟨4, 0, ⟨['T'], [], [], [], []⟩⟩ : Receipt))] 4
  have h1 := (h.1 ⟨4, 0, ⟨['T'], [], [], [], []⟩⟩ (by decide)).1
  have h2 := (claim_C6_delete_semantics ([] : Pool) 4).2 (by decide)
  constructor
  · rw [h1]
    rfl
  · exact h2

/-- Claim C10: in every pool state reachable by `add_receipt` and
`delete_receipt` from the empty pool, every stored receipt's `id` equals the
key it is stored under. -/
theorem claim_C10_key_consistency {p : Pool} (hp : Reach p) :
    ∀ k r, get_receipt p k = some r → r.id = k := by
  induction hp with
  | empty =>
    intro k r h
    rw [get_receipt, lookupPool] at h
    exact absurd h (by simp)
  | add _ hadd ih =>
    obtain ⟨_, rfl, _, _⟩ := add_receipt_spec hadd
    intro k r h
    rw [get_receipt, lookupPool] at h
    split_ifs at h with hk
    · obtain rfl : _ = r := Option.some.inj h
      exact hk.symm
    · exact ih k r h
  | @del p0 k0 _ ih =>
    intro k r h
    rw [get_receipt] at h
    rw [delete_receipt] at h
    rcases hl : lookupPool p0 k0 with _ | r0
    · rw [hl] at h
      exact ih k r h
    · rw [hl] at h
      exact ih k r (lookupPool_erase_of_mem h)

/-- Witness for C10 on a concretely reachable pool. -/
theorem claim_C10_witness :
    (⟨3, 5, ⟨['T'], [], [], [], []⟩⟩ : Receipt).id = 3 :=
  claim_C10_key_consistency
    (Reach.add Reach.empty
      (show add_receipt [] [] ⟨3, 5, ⟨['T'], [], [], [], []⟩⟩ =
        some ([((3 : ℕ), (⟨3, 5, ⟨['T'], [], [], [], []⟩⟩ : Receipt))],
          ⟨3, 5, ⟨['T'], [], [], [], []⟩⟩) by decide))
    3 ⟨3, 5, ⟨['T'], [], [], [], []⟩⟩ (by decide)

/-! ### Claim C7: aggregated validation errors -/

/-- Claim C7: on any raw record with at least one invalid or missing field,
construction fails with a `ValidationError` carrying exactly the violated
fields (all of them), and produces no receipt, id, or points. -/
theorem claim_C7_validation_aggregates (inp : ReceiptInput) (fresh : ℕ)
    (h : ∃ f, fieldBad inp f = true) :
    mkReceipt inp fresh = .error (.validation (validationErrors inp)) ∧
      validationErrors inp ≠ [] ∧
      (∀ f, fieldBad inp f = true ↔ f ∈ validationErrors inp) := by
  have hmem : ∀ f : Field, f ∈ Field.all := by
    intro f
    cases f <;> simp [Field.all]
  have hiff : ∀ f, fieldBad inp f = true ↔ f ∈ validationErrors inp := by
    intro f
    rw [validationErrors, List.mem_filter]
    exact ⟨fun hb => ⟨hmem f, hb⟩, fun hb => hb.2⟩
  obtain ⟨f, hf⟩ := h
  have hne : validationErrors inp ≠ [] := by
    intro hnil
    have := (hiff f).mp hf
    rw [hnil] at this
    simp at this
  exact ⟨by rw [mkReceipt, if_neg hne], hne, hiff⟩

/-- Witness for C7: a record missing its retailer (all other fields valid)
is rejected with exactly that field reported. -/
theorem claim_C7_witness :
    mkReceipt ⟨none, some ("2022-01-01".toList), some ("13:01".toList),
        some [⟨some ("abc".toList), some ("1.00".toList)⟩],
        some ("1.00".toList)⟩ 0 =
      .error (.validation [Field.retailer]) := by
  have h := claim_C7_validation_aggregates
    ⟨none, some ("2022-01-01".toList), some ("13:01".toList),
      some [⟨some ("abc".toList), some ("1.00".toList)⟩],
      some ("1.00".toList)⟩ 0 ⟨Field.retailer, by decide⟩
  rw [h.1]
  have : validationErrors
      ⟨none, some ("2022-01-01".toList), some ("13:01".toList),
        some [⟨some ("abc".toList), some ("1.00".toList)⟩],
        some ("1.00".toList)⟩ = [Field.retailer] := by decide
  rw [this]

/-! ### Claim C8: the retailer validator -/

theorem retailerCore_eq_plain (u : List Char) :
    retailerCore u = retailerPlain u := by
  rcases u with _ | ⟨c, rest⟩
  · rfl
  · rcases List.eq_nil_or_concat rest with rfl | ⟨mid, last, rfl⟩
    · cases hc : pyIsSpace c <;>
        simp [retailerCore, retailerPlain, hc]
    · simp only [List.concat_eq_append]
      rw [retailerCore]
      rw [show (mid ++ [last]).reverse = last :: mid.reverse by
        rw [List.reverse_append]; rfl]
      rw [retailerPlain]
      rw [show (c :: (mid ++ [last])).getLast? = some last from by
        rw [show c :: (mid ++ [last]) = (c :: mid) ++ [last] by simp,
          List.getLast?_concat]]
      rw [show ((c :: (mid ++ [last])).drop 1).dropLast = mid from by
        simp [List.dropLast_concat]]
      simp [List.all_reverse, Bool.and_assoc]

/-- Claim C8, amended: the retailer validator accepts exactly the strings
that, after removal of at most one trailing newline, are non-empty, start
and end with a non-whitespace character, and contain no interior newline.
(The frozen claim — non-empty, no leading or trailing whitespace, all
interior whitespace allowed — fails in both directions, see the
counterexample.) -/
theorem claim_C8_retailer_amended (s : List Char) :
    matchRetailer s = retailerSpecOk s := by
  rw [matchRetailer, reMatchDollar, retailerSpecOk]
  by_cases hl : s.getLast? = some '\n'
  · rw [if_pos hl, hl]
    have hcore : retailerCore s = false := by
      rcases List.eq_nil_or_concat s with rfl | ⟨u, a, rfl⟩
      · rfl
      · simp only [List.concat_eq_append] at hl ⊢
        rw [List.getLast?_concat] at hl
        obtain rfl : a = '\n' := by injection hl
        rw [retailerCore_eq_plain]
        rcases u with _ | ⟨c, mid⟩
        · decide
        · rw [retailerPlain]
          rw [show ((c :: mid) ++ ['\n']).getLast? = some '\n' from
            List.getLast?_concat _]
          simp [show pyIsSpace '\n' = true from by decide]
    rw [hcore, Bool.false_or]
    exact retailerCore_eq_plain _
  · rw [if_neg hl]
    have hmatch : (match s.getLast? with
        | some '\n' => retailerCore s.dropLast
        | _ => false) = false := by
      split
      · rename_i heq
        exact absurd heq hl
      · rfl
    rw [hmatch, Bool.or_false]
    exact retailerCore_eq_plain s

/-- Claim C8, counterexample: the claim's acceptance condition is wrong both
ways.  The string `a\nb` is non-empty with non-whitespace first and last
characters (so the claim accepts it: its only whitespace is interior), yet
the validator rejects it; the string `ab\n` ends in whitespace (so the
claim rejects it), yet the validator accepts it. -/
theorem claim_C8_counterexample :
    matchRetailer ['a', '\n', 'b'] = false ∧
      ['a', '\n', 'b'] ≠ ([] : List Char) ∧
      pyIsSpace 'a' = false ∧ pyIsSpace 'b' = false ∧
      matchRetailer ['a', 'b', '\n'] = true ∧
      pyIsSpace '\n' = true := by
  decide

/-! ### Claim C3: the rule-3 quarter-multiple test -/

theorem two_zpow_le_iff {a b : ℤ} : (2 : ℚ) ^ a ≤ (2 : ℚ) ^ b ↔ a ≤ b :=
  zpow_le_zpow_iff_right₀ (by norm_num)

/-- The float quarter-multiple test of rule 3 agrees with exact arithmetic
on every value of less than `2^47` dollars (`n` is the value in cents). -/
theorem quarter_test_exact {n : ℕ} (hb : n < 100 * 2 ^ 47) :
    pyFmodQuarterIsZero (nearestDouble ((n : ℚ) / 100)) = true ↔
      n % 25 = 0 := by
  rcases Nat.eq_zero_or_pos n with rfl | hnpos
  · rw [show ((0 : ℕ) : ℚ) / 100 = 0 by norm_num]
    rw [show nearestDouble 0 = 0 by rw [nearestDouble]; norm_num]
    rw [pyFmodQuarterIsZero, if_neg (by rw [dblOverflow]; norm_num)]
    simp
  · have hq0 : (0 : ℚ) < (n : ℚ) / 100 := by
      have hn : (0 : ℚ) < (n : ℚ) := by exact_mod_cast hnpos
      positivity
    generalize hqg : ((n : ℚ) / 100) = q at hq0 ⊢
    obtain ⟨e, he⟩ : ∃ e, Int.log 2 q = e := ⟨_, rfl⟩
    have hlow : (2 : ℚ) ^ e ≤ q := by
      have hcast : ((2 : ℕ) : ℚ) ^ Int.log 2 q ≤ q :=
        Int.zpow_log_le_self (by norm_num) hq0
      rw [he] at hcast
      simpa using hcast
    have hhigh : q < (2 : ℚ) ^ (e + 1) := by
      have hcast : q < ((2 : ℕ) : ℚ) ^ (Int.log 2 q + 1) :=
        Int.lt_zpow_succ_log_self (by norm_num) q
      rw [he] at hcast
      simpa using hcast
    have hq47 : q < (2 : ℚ) ^ ((47 : ℕ) : ℤ) := by
      rw [zpow_natCast, ← hqg, div_lt_iff₀ (by norm_num : (0 : ℚ) < 100)]
      calc (n : ℚ) < ((100 * 2 ^ 47 : ℕ) : ℚ) := by exact_mod_cast hb
        _ = 2 ^ 47 * 100 := by push_cast; ring
    have he46 : e ≤ 46 := by
      have h1 : (2 : ℚ) ^ e < (2 : ℚ) ^ ((47 : ℕ) : ℤ) :=
        lt_of_le_of_lt hlow hq47
      have h2 := (zpow_lt_zpow_iff_right₀ (by norm_num : (1 : ℚ) < 2)).mp h1
      omega
    have herr : |nearestDouble q - q| ≤ (2 : ℚ) ^ (e - 53) :=
      nearestDouble_err e hlow hhigh
    have herrsmall : (2 : ℚ) ^ (e - 53) ≤ 1 / 128 := by
      calc (2 : ℚ) ^ (e - 53) ≤ (2 : ℚ) ^ (-7 : ℤ) :=
            two_zpow_le_iff.mpr (by omega)
        _ = 1 / 128 := by norm_num
    generalize hdg : nearestDouble q = d at herr
    have herr' : |q - d| ≤ 1 / 128 := by
      rw [abs_sub_comm]
      exact le_trans herr herrsmall
    have hdlt : ¬ dblOverflow ≤ d := by
      rw [dblOverflow]
      push_neg
      have h1 : d - q ≤ |d - q| := le_abs_self _
      have h2 : q < 2 ^ 47 := by rwa [zpow_natCast] at hq47
      have h3 : |d - q| ≤ 1 / 128 := le_trans herr herrsmall
      have h4 : (2 : ℚ) ^ 47 + 1 ≤ 2 ^ 1024 := by norm_num
      linarith
    rw [pyFmodQuarterIsZero, if_neg hdlt]
    constructor
    · intro hden
      rw [decide_eq_true_eq] at hden
      by_contra hn25
      obtain ⟨z, hz⟩ : ∃ z : ℤ, (4 * d).num = z := ⟨_, rfl⟩
      have hzq : ((z : ℤ) : ℚ) = 4 * d := by
        rw [← hz]
        exact (Rat.den_eq_one_iff _).mp hden
      have hdz : d = ((z : ℤ) : ℚ) / 4 := by
        rw [eq_div_iff (by norm_num : (4 : ℚ) ≠ 0)]
        linarith [hzq]
      have hkey : q - d = (((n : ℤ) - 25 * z : ℤ) : ℚ) / 100 := by
        rw [hdz, ← hqg]
        push_cast
        ring
      have hne : (n : ℤ) - 25 * z ≠ 0 := by
        intro h0
        have h25z : (n : ℤ) = 25 * z := by omega
        have hdvd : (25 : ℤ) ∣ (n : ℤ) := ⟨z, h25z⟩
        have hdvdn : (25 : ℕ) ∣ n := by exact_mod_cast hdvd
        obtain ⟨w, rfl⟩ := hdvdn
        omega
      have hone : (1 : ℚ) ≤ |(((n : ℤ) - 25 * z : ℤ) : ℚ)| := by
        rw [← Int.cast_abs]
        have h1 : (1 : ℤ) ≤ |(n : ℤ) - 25 * z| := Int.one_le_abs hne
        exact_mod_cast h1
      have habs : (1 : ℚ) / 100 ≤ |q - d| := by
        rw [hkey, abs_div, abs_of_pos (by norm_num : (0 : ℚ) < (100 : ℚ))]
        exact (div_le_div_iff_of_pos_right (by norm_num : (0 : ℚ) < 100)).mpr hone
      linarith
    · intro h25n
      rw [decide_eq_true_eq]
      have hdvd : (25 : ℕ) ∣ n := Nat.dvd_of_mod_eq_zero h25n
      obtain ⟨k, hk⟩ := hdvd
      have hq4 : q = (k : ℚ) / 4 := by
        rw [← hqg, hk]
        push_cast
        ring
      have he50 : (0 : ℤ) ≤ 50 - e := by omega
      have hgrid : q = ((k * 2 ^ ((50 - e).toNat) : ℤ) : ℚ) * 2 ^ (e - 52) := by
        push_cast
        rw [hq4,
          show ((2 : ℚ) ^ ((50 - e).toNat) : ℚ) =
            (2 : ℚ) ^ (((50 - e).toNat : ℤ)) from (zpow_natCast 2 _).symm,
          Int.toNat_of_nonneg he50, mul_assoc,
          ← zpow_add₀ (by norm_num : (2 : ℚ) ≠ 0),
          show (50 - e) + (e - 52) = (-2 : ℤ) by ring,
          show (2 : ℚ) ^ (-2 : ℤ) = 1 / 4 by norm_num]
        ring
      have hdq : d = q := by
        rw [← hdg]
        exact nearestDouble_eq_self e hlow hhigh hgrid
      rw [hdq, hq4,
        show (4 : ℚ) * ((k : ℚ) / 4) = (((k : ℕ) : ℤ) : ℚ) by push_cast; ring]
      exact Rat.den_intCast _

/-- Claim C3, amended: for every validated total whose value is below `2^47`
dollars, rule 3 adds 25 exactly when the cents part is a multiple of 25
(00, 25, 50 or 75), i.e. exactly when the value is an exact multiple of
0.25.  (For larger totals the float test misfires, see the
counterexample.) -/
theorem claim_C3_rule3_amended (s : List Char) (hmone : matchMoney s = true)
    (hb : moneyCents s < 100 * 2 ^ 47) :
    rule3Points s = 25 ↔ moneyCentsVal s % 25 = 0 := by
  have hclt : moneyCentsVal s < 100 := money_cents_lt hmone
  have hcents : moneyCents s % 25 = moneyCentsVal s % 25 := by
    rw [moneyCents]
    omega
  rw [rule3Points, pyFloat, pyDecimalValue_cents s]
  rw [show (moneyCentsVal s % 25 = 0) = (moneyCents s % 25 = 0) by
    rw [hcents]]
  rw [← quarter_test_exact hb]
  split_ifs with hcond
  · simp [hcond]
  · simp [hcond]

/-- Claim C3, counterexample: at the validated total `140737488355328.26`
(`2^47` dollars and 26 cents) the cents part is not 00, 25, 50 or 75, yet
rule 3 adds 25: the float value rounds to `140737488355328.25`, an exact
multiple of 0.25, so `float(total) % 0.25 == 0` holds. -/
theorem claim_C3_counterexample :
    matchMoney ("140737488355328.26".toList) = true ∧
      moneyCentsVal ("140737488355328.26".toList) = 26 ∧
      rule3Points ("140737488355328.26".toList) = 25 := by
  refine ⟨by decide, by decide, ?_⟩
  have hcent : moneyCents ("140737488355328.26".toList) = 14073748835532826 := by
    decide
  have hq : pyDecimalValue ("140737488355328.26".toList) =
      14073748835532826 / 100 := by
    rw [pyDecimalValue_cents, hcent]
    norm_num
  have hnd : nearestDouble ((14073748835532826 : ℚ) / 100) =
      (4503599627370504 : ℚ) / 32 :=
    nearestDouble_eq_of_close 47
      (by norm_num)
      (by norm_num)
      (show (4503599627370504 : ℚ) / 32 =
        ((4503599627370504 : ℤ) : ℚ) * 2 ^ ((47 : ℤ) - 52) by norm_num)
      (by rw [abs_sub_lt_iff]; constructor <;> norm_num)
  have hden : ((4 : ℚ) * (4503599627370504 / 32)).den = 1 := by
    rw [show (4 : ℚ) * (4503599627370504 / 32) =
      ((562949953421313 : ℤ) : ℚ) by norm_num]
    exact Rat.den_intCast _
  have hpf : pyFmodQuarterIsZero ((4503599627370504 : ℚ) / 32) = true := by
    rw [pyFmodQuarterIsZero, if_neg (by rw [dblOverflow]; push_neg; norm_num)]
    simpa using hden
  rw [rule3Points, pyFloat, hq, hnd, hpf]
  norm_num

/-- Witness for the amended C3 at the concrete total `10.75`. -/
theorem claim_C3_witness : rule3Points ("10.75".toList) = 25 :=
  (claim_C3_rule3_amended ("10.75".toList) (by decide) (by decide)).mpr
    (by decide)

/-! ### Claim C2: the rule-5 item contribution -/

theorem nearestDouble_zero : nearestDouble 0 = 0 := by
  rw [nearestDouble]
  norm_num

/-- Rewriting a binade power with a natural exponent. -/
theorem two_zpow_natCast_add_one (J : ℕ) :
    (2 : ℚ) ^ ((J : ℤ) + 1) = ((2 ^ (J + 1) : ℕ) : ℚ) := by
  rw [show ((J : ℤ) + 1) = ((J + 1 : ℕ) : ℤ) by push_cast; ring, zpow_natCast]
  push_cast
  ring

/-- The rule-5 float chain (`ceil(float(price) * 0.2)`) agrees with the
exact ceiling `ceil(price / 5)` for every price below `2^44` cents. -/
theorem rule5_chain_exact {n : ℕ} (hb : n < 2 ^ 44) :
    pyCeilToInt (pyMulLit02 (nearestDouble ((n : ℚ) / 100))) =
      Except.ok ⌈(n : ℚ) / 500⌉ := by
  have hpy : pyLit02 = 3602879701896397 / 2 ^ 54 := pyLit02_eq
  rcases Nat.eq_zero_or_pos n with rfl | hnpos
  · rw [show ((0 : ℕ) : ℚ) / 100 = 0 by norm_num, nearestDouble_zero,
      pyMulLit02, if_neg (by rw [dblOverflow]; push_neg; norm_num),
      show (0 : ℚ) * pyLit02 = 0 by ring, nearestDouble_zero,
      pyCeilToInt, if_neg (by rw [dblOverflow]; push_neg; norm_num)]
    norm_num
  · have hp0 : (0 : ℚ) < (n : ℚ) / 100 := by
      have hn : (0 : ℚ) < (n : ℚ) := by exact_mod_cast hnpos
      positivity
    have hpge : (1 : ℚ) / 100 ≤ (n : ℚ) / 100 := by
      have hn : (1 : ℚ) ≤ (n : ℚ) := by exact_mod_cast hnpos
      linarith
    have hplt : (n : ℚ) / 100 < 274877906944 := by
      rw [div_lt_iff₀ (by norm_num : (0 : ℚ) < 100)]
      calc (n : ℚ) < ((2 ^ 44 : ℕ) : ℚ) := by exact_mod_cast hb
        _ ≤ 274877906944 * 100 := by norm_num
    generalize hpg : ((n : ℚ) / 100) = p at hp0 hpge hplt ⊢
    obtain ⟨e1, he1⟩ : ∃ e, Int.log 2 p = e := ⟨_, rfl⟩
    have hlow1 : (2 : ℚ) ^ e1 ≤ p := by
      have hcast : ((2 : ℕ) : ℚ) ^ Int.log 2 p ≤ p :=
        Int.zpow_log_le_self (by norm_num) hp0
      rw [he1] at hcast
      simpa using hcast
    have hhigh1 : p < (2 : ℚ) ^ (e1 + 1) := by
      have hcast : p < ((2 : ℕ) : ℚ) ^ (Int.log 2 p + 1) :=
        Int.lt_zpow_succ_log_self (by norm_num) p
      rw [he1] at hcast
      simpa using hcast
    have he137 : e1 ≤ 37 := by
      have h1 : (2 : ℚ) ^ e1 < (2 : ℚ) ^ ((38 : ℕ) : ℤ) := by
        apply lt_of_le_of_lt hlow1
        rw [zpow_natCast]
        calc p < 274877906944 := hplt
          _ ≤ 2 ^ 38 := by norm_num
      have h2 := (zpow_lt_zpow_iff_right₀ (by norm_num : (1 : ℚ) < 2)).mp h1
      omega
    have herr1 : |nearestDouble p - p| ≤ (2 : ℚ) ^ (e1 - 53) :=
      nearestDouble_err e1 hlow1 hhigh1
    have herr1' : |nearestDouble p - p| ≤ 1 / 65536 := by
      apply le_trans herr1
      calc (2 : ℚ) ^ (e1 - 53) ≤ (2 : ℚ) ^ (-16 : ℤ) :=
            two_zpow_le_iff.mpr (by omega)
        _ = 1 / 65536 := by norm_num
    generalize hp'g : nearestDouble p = p' at herr1'
    obtain ⟨hp'a, hp'b⟩ := abs_le.mp herr1'
    have hp'lb : 1 / 100 - 1 / 65536 ≤ p' := by linarith
    have hp'ub : p' ≤ 274877906944 + 1 / 65536 := by linarith
    have hp'overflow : ¬ dblOverflow ≤ p' := by
      rw [dblOverflow]
      push_neg
      have h4 : (274877906944 : ℚ) + 1 ≤ 2 ^ 1024 := by norm_num
      linarith
    by_cases hdvd : 500 ∣ n
    · -- exactly divisible: the chain is exact end to end
      obtain ⟨k, rfl⟩ := hdvd
      have hk1 : 1 ≤ k := by omega
      have hk36 : k < 2 ^ 36 := by omega
      have hpk : p = ((5 * k : ℕ) : ℚ) := by
        rw [← hpg]
        push_cast
        ring
      have hgrid1 : p =
          (((5 * k : ℕ) : ℤ) * 2 ^ ((52 - e1).toNat) : ℤ) * 2 ^ (e1 - 52) := by
        push_cast
        rw [hpk,
          show ((2 : ℚ) ^ ((52 - e1).toNat) : ℚ) =
            (2 : ℚ) ^ (((52 - e1).toNat : ℤ)) from (zpow_natCast 2 _).symm,
          Int.toNat_of_nonneg (by omega : (0 : ℤ) ≤ 52 - e1), mul_assoc,
          ← zpow_add₀ (by norm_num : (2 : ℚ) ≠ 0),
          show (52 - e1) + (e1 - 52) = (0 : ℤ) by ring]
        push_cast
        ring
      have hp'p : p' = p := by
        rw [← hp'g]
        exact nearestDouble_eq_self e1 hlow1 hhigh1 hgrid1
      have hy0 : p' * pyLit02 = (k : ℚ) + (k : ℚ) / 2 ^ 54 := by
        rw [hp'p, hpk, hpy]
        push_cast
        ring
      have hk0 : (0 : ℚ) < (k : ℚ) := by exact_mod_cast hk1
      obtain ⟨j, hj⟩ : ∃ j, Int.log 2 ((k : ℚ)) = j := ⟨_, rfl⟩
      have hjl : (2 : ℚ) ^ j ≤ (k : ℚ) := by
        have hcast : ((2 : ℕ) : ℚ) ^ Int.log 2 ((k : ℚ)) ≤ (k : ℚ) :=
          Int.zpow_log_le_self (by norm_num) hk0
        rw [hj] at hcast
        simpa using hcast
      have hjh : (k : ℚ) < (2 : ℚ) ^ (j + 1) := by
        have hcast : (k : ℚ) < ((2 : ℕ) : ℚ) ^ (Int.log 2 ((k : ℚ)) + 1) :=
          Int.lt_zpow_succ_log_self (by norm_num) ((k : ℚ))
        rw [hj] at hcast
        simpa using hcast
      have hj0 : 0 ≤ j := by
        by_contra hneg
        push_neg at hneg
        have h1 : (2 : ℚ) ^ (j + 1) ≤ (2 : ℚ) ^ (0 : ℤ) :=
          two_zpow_le_iff.mpr (by omega)
        rw [zpow_zero] at h1
        have h2 : (1 : ℚ) ≤ (k : ℚ) := by exact_mod_cast hk1
        linarith
      obtain ⟨J, rfl⟩ : ∃ J : ℕ, (J : ℤ) = j := ⟨j.toNat, Int.toNat_of_nonneg hj0⟩
      have hkubQ : (k : ℚ) < ((2 ^ (J + 1) : ℕ) : ℚ) := by
        rw [← two_zpow_natCast_add_one]
        exact hjh
      have hkubN : k < 2 ^ (J + 1) := by exact_mod_cast hkubQ
      have hJ35 : J ≤ 35 := by
        have h1 : (2 : ℚ) ^ ((J : ℤ)) < (2 : ℚ) ^ ((36 : ℕ) : ℤ) := by
          apply lt_of_le_of_lt hjl
          rw [zpow_natCast]
          exact_mod_cast hk36
        have h2 := (zpow_lt_zpow_iff_right₀ (by norm_num : (1 : ℚ) < 2)).mp h1
        omega
      have hkQub : (k : ℚ) ≤ (2 : ℚ) ^ ((J : ℤ) + 1) - 1 := by
        rw [two_zpow_natCast_add_one]
        have h1 : k ≤ 2 ^ (J + 1) - 1 := by omega
        have h2 : (1 : ℕ) ≤ 2 ^ (J + 1) := Nat.one_le_two_pow
        calc (k : ℚ) ≤ ((2 ^ (J + 1) - 1 : ℕ) : ℚ) := by exact_mod_cast h1
          _ = ((2 ^ (J + 1) : ℕ) : ℚ) - 1 := by
              rw [Nat.cast_sub h2]
              norm_num
      have hpow54 : (2 : ℚ) ^ ((J : ℤ) + 1) ≤ (2 : ℚ) ^ ((54 : ℕ) : ℤ) :=
        two_zpow_le_iff.mpr (by omega)
      have hy0l : (2 : ℚ) ^ ((J : ℤ)) ≤ (k : ℚ) + (k : ℚ) / 2 ^ 54 := by
        have : (0 : ℚ) ≤ (k : ℚ) / 2 ^ 54 := by positivity
        linarith
      have hy0h : (k : ℚ) + (k : ℚ) / 2 ^ 54 < (2 : ℚ) ^ ((J : ℤ) + 1) := by
        have h1 : (k : ℚ) / 2 ^ 54 < 1 := by
          rw [div_lt_one (by norm_num : (0 : ℚ) < 2 ^ 54)]
          calc (k : ℚ) ≤ (2 : ℚ) ^ ((J : ℤ) + 1) - 1 := hkQub
            _ < (2 : ℚ) ^ ((54 : ℕ) : ℤ) := by
                have := hpow54
                linarith
            _ = 2 ^ 54 := by rw [zpow_natCast]
        linarith [hkQub]
      have hgrid2 : (k : ℚ) =
          ((k : ℤ) * 2 ^ ((52 - (J : ℤ)).toNat) : ℤ) * 2 ^ ((J : ℤ) - 52) := by
        push_cast
        rw [show ((2 : ℚ) ^ ((52 - (J : ℤ)).toNat) : ℚ) =
            (2 : ℚ) ^ (((52 - (J : ℤ)).toNat : ℤ)) from (zpow_natCast 2 _).symm,
          Int.toNat_of_nonneg (by omega : (0 : ℤ) ≤ 52 - (J : ℤ)), mul_assoc,
          ← zpow_add₀ (by norm_num : (2 : ℚ) ≠ 0),
          show (52 - (J : ℤ)) + ((J : ℤ) - 52) = (0 : ℤ) by ring]
        ring
      have hclose2 : |(k : ℚ) + (k : ℚ) / 2 ^ 54 - (k : ℚ)| <
          (2 : ℚ) ^ ((J : ℤ) - 53) := by
        rw [show (k : ℚ) + (k : ℚ) / 2 ^ 54 - (k : ℚ) = (k : ℚ) / 2 ^ 54 by
          ring]
        rw [abs_of_nonneg (by positivity)]
        have h1 : (k : ℚ) / 2 ^ 54 < (2 : ℚ) ^ ((J : ℤ) + 1) / 2 ^ 54 :=
          (div_lt_div_iff_of_pos_right (by norm_num : (0 : ℚ) < 2 ^ 54)).mpr hjh
        have h2 : (2 : ℚ) ^ ((J : ℤ) + 1) / 2 ^ 54 = (2 : ℚ) ^ ((J : ℤ) - 53) := by
          rw [show ((J : ℤ) - 53) = ((J : ℤ) + 1) - ((54 : ℕ) : ℤ) by push_cast; ring,
            zpow_sub₀ (by norm_num : (2 : ℚ) ≠ 0), zpow_natCast]
        rw [← h2]
        exact h1
      have hnd2 : nearestDouble ((k : ℚ) + (k : ℚ) / 2 ^ 54) = (k : ℚ) :=
        nearestDouble_eq_of_close ((J : ℤ)) hy0l hy0h hgrid2 hclose2
      rw [pyMulLit02, if_neg hp'overflow, hy0, hnd2, pyCeilToInt,
        if_neg (by
          rw [dblOverflow]
          push_neg
          calc (k : ℚ) < 2 ^ 36 := by exact_mod_cast hk36
            _ < 2 ^ 1024 := by norm_num)]
      congr 1
      rw [Int.ceil_natCast,
        show ((500 * k : ℕ) : ℚ) / 500 = ((k : ℕ) : ℚ) by push_cast; ring,
        Int.ceil_natCast]
    · -- not divisible: within-half-ulp analysis
      obtain ⟨M, r, hMr, hr1, hr499⟩ :
          ∃ M r, n = 500 * M + r ∧ 1 ≤ r ∧ r ≤ 499 := by
        refine ⟨n / 500, n % 500, by omega, ?_, by omega⟩
        have hmod : n % 500 ≠ 0 := fun h => hdvd (Nat.dvd_of_mod_eq_zero h)
        omega
      have hn500 : (n : ℚ) / 500 = (M : ℚ) + (r : ℚ) / 500 := by
        rw [hMr]
        push_cast
        ring
      have hplit : (0 : ℚ) < pyLit02 := by rw [hpy]; norm_num
      have hplitle : pyLit02 ≤ 1 / 4 := by rw [hpy]; norm_num
      have hd5 : pyLit02 - 1 / 5 = 1 / 90071992547409920 := by
        rw [hpy]
        norm_num
      have hp5 : (n : ℚ) / 500 = p / 5 := by rw [← hpg]; ring
      have hy0err : |p' * pyLit02 - (n : ℚ) / 500| ≤ 7 / 1000000 := by
        have hkey : p' * pyLit02 - (n : ℚ) / 500 =
            (p' - p) * pyLit02 + p * (pyLit02 - 1 / 5) := by
          rw [hp5]
          ring
        rw [hkey]
        have h1 : |(p' - p) * pyLit02| ≤ (1 / 65536) * (1 / 4) := by
          rw [abs_mul, abs_of_pos hplit]
          apply mul_le_mul ?_ hplitle hplit.le (by norm_num)
          exact herr1'
        have h2 : |p * (pyLit02 - 1 / 5)| ≤
            274877906944 * (1 / 90071992547409920) := by
          rw [abs_mul, hd5]
          rw [abs_of_pos hp0, abs_of_pos (by norm_num : (0:ℚ) < 1 / 90071992547409920)]
          apply mul_le_mul hplt.le le_rfl (by norm_num) (by norm_num)
        calc |(p' - p) * pyLit02 + p * (pyLit02 - 1 / 5)|
            ≤ |(p' - p) * pyLit02| + |p * (pyLit02 - 1 / 5)| := abs_add _ _
          _ ≤ (1 / 65536) * (1 / 4) + 274877906944 * (1 / 90071992547409920) := by
              linarith
          _ ≤ 7 / 1000000 := by norm_num
      obtain ⟨hy0a, hy0b⟩ := abs_le.mp hy0err
      have hy0pos : (0 : ℚ) < p' * pyLit02 := by
        apply mul_pos ?_ hplit
        have : (0 : ℚ) < 1 / 100 - 1 / 65536 := by norm_num
        linarith
      have hn500ub : (n : ℚ) / 500 < 35184372089 := by
        rw [div_lt_iff₀ (by norm_num : (0 : ℚ) < 500)]
        calc (n : ℚ) < ((2 ^ 44 : ℕ) : ℚ) := by exact_mod_cast hb
          _ ≤ 35184372089 * 500 := by norm_num
      generalize hy0g : p' * pyLit02 = y0 at hy0a hy0b hy0pos
      obtain ⟨e2, he2⟩ : ∃ e, Int.log 2 y0 = e := ⟨_, rfl⟩
      have hlow2 : (2 : ℚ) ^ e2 ≤ y0 := by
        have hcast : ((2 : ℕ) : ℚ) ^ Int.log 2 y0 ≤ y0 :=
          Int.zpow_log_le_self (by norm_num) hy0pos
        rw [he2] at hcast
        simpa using hcast
      have hhigh2 : y0 < (2 : ℚ) ^ (e2 + 1) := by
        have hcast : y0 < ((2 : ℕ) : ℚ) ^ (Int.log 2 y0 + 1) :=
          Int.lt_zpow_succ_log_self (by norm_num) y0
        rw [he2] at hcast
        simpa using hcast
      have he235 : e2 ≤ 35 := by
        have h1 : (2 : ℚ) ^ e2 < (2 : ℚ) ^ ((36 : ℕ) : ℤ) := by
          apply lt_of_le_of_lt hlow2
          rw [zpow_natCast]
          calc y0 ≤ (n : ℚ) / 500 + 7 / 1000000 := by linarith
            _ < 35184372089 + 1 := by linarith
            _ ≤ 2 ^ 36 := by norm_num
        have h2 := (zpow_lt_zpow_iff_right₀ (by norm_num : (1 : ℚ) < 2)).mp h1
        omega
      have herr2 : |nearestDouble y0 - y0| ≤ (2 : ℚ) ^ (e2 - 53) :=
        nearestDouble_err e2 hlow2 hhigh2
      have herr2' : |nearestDouble y0 - y0| ≤ 1 / 262144 := by
        apply le_trans herr2
        calc (2 : ℚ) ^ (e2 - 53) ≤ (2 : ℚ) ^ (-18 : ℤ) :=
              two_zpow_le_iff.mpr (by omega)
          _ = 1 / 262144 := by norm_num
      generalize hy'g : nearestDouble y0 = y' at herr2'
      obtain ⟨hy'a, hy'b⟩ := abs_le.mp herr2'
      have hrlb : (1 : ℚ) / 500 ≤ (r : ℚ) / 500 := by
        have h1 : (1 : ℚ) ≤ (r : ℚ) := by exact_mod_cast hr1
        linarith
      have hrub : (r : ℚ) / 500 ≤ 499 / 500 := by
        have h1 : (r : ℚ) ≤ 499 := by exact_mod_cast hr499
        linarith
      have hceil2 : ⌈y'⌉ = (M : ℤ) + 1 := by
        rw [Int.ceil_eq_iff]
        constructor
        · push_cast
          linarith [hy0a, hy'a, hrlb, hn500]
        · push_cast
          linarith [hy0b, hy'b, hrub, hn500]
      have hceil1 : ⌈(n : ℚ) / 500⌉ = (M : ℤ) + 1 := by
        rw [Int.ceil_eq_iff]
        constructor
        · push_cast
          linarith [hrlb, hn500]
        · push_cast
          linarith [hrub, hn500]
      rw [pyMulLit02, if_neg hp'overflow, hy0g, hy'g, pyCeilToInt,
        if_neg (by
          rw [dblOverflow]
          push_neg
          have : (35184372089 : ℚ) + 1 ≤ 2 ^ 1024 := by norm_num
          linarith),
        hceil2, hceil1]

/-- Claim C2, amended: for every validated item whose price is below `2^44`
cents, rule 5 adds exactly `ceil(price * 0.2)` when the trimmed description
length is a multiple of 3 — including the boundary case of trimmed length 0,
as the all-whitespace description below shows — and 0 otherwise.  (For
astronomically large prices the float chain can differ from the exact
ceiling, see the counterexample.) -/
theorem claim_C2_rule5_amended :
    (∀ it : Item, itemOk it = true → moneyCents it.price < 2 ^ 44 →
      rule5Item it =
        Except.ok (if (pyStrip it.shortDescription).length % 3 = 0
          then ⌈((moneyCents it.price : ℕ) : ℚ) / 500⌉ else 0)) ∧
    (pyStrip ([' ', ' ', ' '] : List Char)).length % 3 = 0 ∧
      matchDesc [' ', ' ', ' '] = true := by
  refine ⟨fun it _ hb => ?_, by decide, by decide⟩
  rw [rule5Item, pyFloat, pyDecimalValue_cents]
  split_ifs with hlen
  · exact rule5_chain_exact hb
  · rfl

/-- Witness for the amended C2: an all-whitespace description (trimmed
length 0) with price `1.01` contributes `ceil(1.01 * 0.2) = 1`. -/
theorem claim_C2_witness :
    rule5Item ⟨[' ', ' ', ' '], ("1.01".toList)⟩ = Except.ok 1 := by
  have h := claim_C2_rule5_amended.1 ⟨[' ', ' ', ' '], ("1.01".toList)⟩
    (by decide) (by decide)
  rw [h, show moneyCents ("1.01".toList) = 101 from by decide,
    if_pos (show (pyStrip ([' ', ' ', ' '] : List Char)).length % 3 = 0
      from by decide)]
  congr 1
  rw [Int.ceil_eq_iff]
  constructor <;> norm_num

/-- Claim C2, counterexample: at the validated price `1000000000000000.01`
(10^15 dollars and one cent) with the qualifying description `abc`, the
exact `ceil(price * 0.2)` is 200000000000001, but rule 5 adds only
200000000000000: `float` parsing rounds the price to exactly `10^15`, and
the double product with the `0.2` literal rounds down to exactly
`2 * 10^14`. -/
theorem claim_C2_counterexample :
    itemOk ⟨("abc".toList), ("1000000000000000.01".toList)⟩ = true ∧
      (pyStrip ("abc".toList)).length % 3 = 0 ∧
      pyDecimalValue ("1000000000000000.01".toList) =
        100000000000000001 / 100 ∧
      ⌈((100000000000000001 : ℚ) / 100) / 5⌉ = 200000000000001 ∧
      rule5Item ⟨("abc".toList), ("1000000000000000.01".toList)⟩ =
        Except.ok 200000000000000 := by
  have hcent : moneyCents ("1000000000000000.01".toList) =
      100000000000000001 := by decide
  refine ⟨by decide, by decide, ?_, ?_, ?_⟩
  · rw [pyDecimalValue_cents, hcent]
    norm_num
  · rw [Int.ceil_eq_iff]
    constructor <;> norm_num
  · have h1 : nearestDouble ((100000000000000001 : ℚ) / 100) =
        1000000000000000 :=
      nearestDouble_eq_of_close 49 (by norm_num) (by norm_num)
        (show (1000000000000000 : ℚ) =
          ((8000000000000000 : ℤ) : ℚ) * 2 ^ ((49 : ℤ) - 52) by norm_num)
        (by rw [abs_sub_lt_iff]; constructor <;> norm_num)
    have hmul : (1000000000000000 : ℚ) * pyLit02 =
        200000000000000 + 200000000000000 / 2 ^ 54 := by
      rw [pyLit02_eq]
      norm_num
    have h2 : nearestDouble
        ((200000000000000 : ℚ) + 200000000000000 / 2 ^ 54) =
        200000000000000 :=
      nearestDouble_eq_of_close 47 (by norm_num) (by norm_num)
        (show (200000000000000 : ℚ) =
          ((6400000000000000 : ℤ) : ℚ) * 2 ^ ((47 : ℤ) - 52) by norm_num)
        (by rw [abs_sub_lt_iff]; constructor <;> norm_num)
    rw [rule5Item, if_pos (by decide), pyFloat, pyDecimalValue_cents, hcent,
      show ((100000000000000001 : ℕ) : ℚ) / 100 =
        (100000000000000001 : ℚ) / 100 by norm_num,
      h1, pyMulLit02, if_neg (by rw [dblOverflow]; push_neg; norm_num),
      hmul, h2, pyCeilToInt,
      if_neg (by rw [dblOverflow]; push_neg; norm_num)]
    congr 1

/-! ### Claim C9: non-negativity (and the overflow exception) -/

theorem pyDecimalValue_nonneg (s : List Char) : 0 ≤ pyDecimalValue s := by
  rw [pyDecimalValue_cents]
  positivity

theorem pyMulLit02_nonneg {d : ℚ} (h : 0 ≤ d) : 0 ≤ pyMulLit02 d := by
  rw [pyMulLit02]
  split_ifs with hoo
  · exact h
  · apply nearestDouble_nonneg
    apply mul_nonneg h
    rw [pyLit02_eq]
    norm_num

theorem rule5Item_ok_nonneg {it : Item} {m : ℤ}
    (h : rule5Item it = .ok m) : 0 ≤ m := by
  rw [rule5Item] at h
  split_ifs at h with hc
  · rw [pyCeilToInt] at h
    split_ifs at h with ho
    simp only [Except.ok.injEq] at h
    obtain rfl := h
    exact Int.ceil_nonneg
      (pyMulLit02_nonneg (nearestDouble_nonneg (pyDecimalValue_nonneg _)))
  · simp only [Except.ok.injEq] at h
    omega

theorem rule5Items_ok_nonneg :
    ∀ {l : List Item} {m : ℤ}, rule5Items l = .ok m → 0 ≤ m
  | [], m, h => by
    rw [rule5Items] at h
    simp only [Except.ok.injEq] at h
    omega
  | it :: rest, m, h => by
    rw [rule5Items] at h
    rcases hc : rule5Item it with e | c
    · rw [hc] at h
      exact absurd h (by simp [Bind.bind, Except.bind])
    · rw [hc] at h
      rcases hr : rule5Items rest with e | rsum
      · rw [hr] at h
        exact absurd h (by simp [Bind.bind, Except.bind])
      · rw [hr] at h
        simp only [Bind.bind, Except.bind, Pure.pure, Except.pure,
          Except.ok.injEq] at h
        have h1 := rule5Item_ok_nonneg hc
        have h2 := rule5Items_ok_nonneg hr
        omega

theorem rule3Points_nonneg (t : List Char) : 0 ≤ rule3Points t := by
  rw [rule3Points]
  split_ifs <;> norm_num

theorem rule7Points_nonneg (t : List Char) : 0 ≤ rule7Points t := by
  rw [rule7Points]
  split_ifs <;> norm_num

/-- Claim C9, amended: whenever `calculate_points` completes on a validated
receipt, the result is a non-negative integer.  (It does not always
complete: an item with a price at or beyond the float overflow threshold
and a qualifying description makes it raise `OverflowError` instead — see
the counterexample.) -/
theorem claim_C9_points_nonneg_amended {r : ReceiptData} {m : ℤ}
    (_hv : validReceipt r = true) (h : calculate_points r = .ok m) :
    0 ≤ m := by
  rw [calculate_points] at h
  rcases h5 : rule5Items r.items with e | p5
  · rw [h5] at h
    exact absurd h (by simp [Bind.bind, Except.bind])
  · rw [h5] at h
    simp only [Bind.bind, Except.bind, Pure.pure, Except.pure,
      Except.ok.injEq] at h
    obtain rfl := h
    have h1 : (0 : ℤ) ≤ (count_alphanumeric r.retailer : ℤ) :=
      Int.natCast_nonneg _
    have h2 : (0 : ℤ) ≤ if has_zero_cents r.total then (50 : ℤ) else 0 := by
      split_ifs <;> norm_num
    have h3 := rule3Points_nonneg r.total
    have h4 : (0 : ℤ) ≤ ((r.items.length / 2 * 5 : ℕ) : ℤ) :=
      Int.natCast_nonneg _
    have h5nn := rule5Items_ok_nonneg h5
    have h6 : (0 : ℤ) ≤
        if get_day r.purchaseDate % 2 = 1 then (6 : ℤ) else 0 := by
      split_ifs <;> norm_num
    have h7 := rule7Points_nonneg r.purchaseTime
    linarith

/-- Witness for the amended C9: a concrete validated receipt on which
`calculate_points` returns 82. -/
theorem claim_C9_witness : (0 : ℤ) ≤ 82 := by
  have h3 : rule3Points ("0.00".toList) = 25 := by
    have hd0 : ((4 : ℚ) * 0).den = 1 := by
      rw [mul_zero]
      exact Rat.den_zero
    have hno : ¬ dblOverflow ≤ (0 : ℚ) := by
      rw [dblOverflow]
      norm_num
    have hpf : pyFmodQuarterIsZero 0 = true := by
      rw [pyFmodQuarterIsZero, if_neg hno]
      simp [hd0]
    rw [rule3Points, pyFloat, pyDecimalValue_cents,
      show moneyCents ("0.00".toList) = 0 from by decide,
      show ((0 : ℕ) : ℚ) / 100 = 0 by norm_num, nearestDouble_zero, hpf]
    norm_num
  have hlist : rule5Items [⟨("ab".toList), ("1.00".toList)⟩] =
      Except.ok 0 := by
    rw [rule5Items, show rule5Item ⟨("ab".toList), ("1.00".toList)⟩ =
      Except.ok 0 from by decide, rule5Items]
    rfl
  have hcp : calculate_points ⟨['M'], ("2022-01-01".toList),
      ("13:01".toList), [⟨("ab".toList), ("1.00".toList)⟩],
      ("0.00".toList)⟩ = .ok 82 := by
    simp only [calculate_points, hlist, h3, Bind.bind, Except.bind,
      Pure.pure, Except.pure, Except.ok.injEq]
    decide
  exact claim_C9_points_nonneg_amended (by decide) hcp

set_option maxRecDepth 8192 in
set_option exponentiation.threshold 2048 in
/-- Claim C9, counterexample: on a validated receipt holding an item with a
310-digit price (value `10^309`, beyond the double range, so `float`
parses it to infinity) and a description of trimmed length 3,
`calculate_points` raises `OverflowError` (`math.ceil` of an infinite
float) instead of returning an integer. -/
theorem claim_C9_counterexample :
    validReceipt (⟨['M'], ("2022-01-01".toList), ("13:01".toList),
      [⟨("abc".toList), ('1' :: (List.replicate 309 '0' ++ ['.', '0', '0']))⟩],
      ("1.00".toList)⟩ : ReceiptData) = true ∧
    calculate_points (⟨['M'], ("2022-01-01".toList), ("13:01".toList),
      [⟨("abc".toList), ('1' :: (List.replicate 309 '0' ++ ['.', '0', '0']))⟩],
      ("1.00".toList)⟩ : ReceiptData) = .error () := by
  constructor
  · decide
  · have hcent : moneyCents
        ('1' :: (List.replicate 309 '0' ++ ['.', '0', '0'])) = 10 ^ 311 := by
      decide
    have hvalq : pyDecimalValue
        ('1' :: (List.replicate 309 '0' ++ ['.', '0', '0'])) =
        (10 : ℚ) ^ 309 := by
      rw [pyDecimalValue_cents, hcent]
      push_cast
      norm_num
    have hlow : (2 : ℚ) ^ ((1026 : ℕ) : ℤ) ≤ (10 : ℚ) ^ 309 := by
      rw [zpow_natCast]
      norm_num
    have hhigh : (10 : ℚ) ^ 309 < (2 : ℚ) ^ (((1026 : ℕ) : ℤ) + 1) := by
      rw [show (((1026 : ℕ) : ℤ) + 1) = ((1027 : ℕ) : ℤ) by norm_num,
        zpow_natCast]
      norm_num
    have herr := nearestDouble_err ((1026 : ℕ) : ℤ) hlow hhigh
    have herr2 : |nearestDouble ((10 : ℚ) ^ 309) - (10 : ℚ) ^ 309| ≤
        2 ^ 973 := by
      rw [show (((1026 : ℕ) : ℤ) - 53) = ((973 : ℕ) : ℤ) by norm_num,
        zpow_natCast] at herr
      exact herr
    have hover : dblOverflow ≤ nearestDouble ((10 : ℚ) ^ 309) := by
      rw [dblOverflow]
      have h1 := (abs_le.mp herr2).1
      have h2 : (2 : ℚ) ^ 1024 + 2 ^ 973 ≤ (10 : ℚ) ^ 309 := by norm_num
      linarith
    have hitem : rule5Item ⟨("abc".toList),
        ('1' :: (List.replicate 309 '0' ++ ['.', '0', '0']))⟩ =
        .error () := by
      rw [rule5Item, if_pos (by decide), pyFloat, hvalq, pyMulLit02,
        if_pos hover, pyCeilToInt, if_pos hover]
    rw [calculate_points, rule5Items, hitem]
    rfl

end ReceiptProc
